import Mathlib

/-!
Verification development for the Holmake dependency-graph generator
(`holmake_dep_graph.py`).

The Python program is shallowly embedded:
* the custom insertion-ordered `OrderedSet` becomes a duplicate-free
  `List` built with append-if-absent operations;
* Python `dict` / `OrderedDict` become insertion-ordered association
  lists (`List (κ × β)`) with first-match lookup;
* operations that can raise `KeyError` return `Option`;
* the unbounded recursion of `remove_common_dependencies` is given
  explicit fuel (`nodes.length + 1`), which on acyclic graphs — the only
  inputs on which the Python recursion terminates — never runs out, so
  the embedding agrees with the source there;
* the global PRNG is modelled as a stream of `randint(0,255)` triples
  passed to `as_dot`, one triple consumed per node, exactly as the
  source consumes `random.randint` in `random_color`.
-/

/-- Generic first-match association-list lookup, the model of Python
`dict[key]` access (`none` models a raised `KeyError`). -/
def alookup {α β : Type} [DecidableEq α] : List (α × β) → α → Option β
  | [], _ => none
  | p :: t, k => if p.1 = k then some p.2 else alookup t k

/-- Model of constructing an `OrderedSet` from an iterable: keep the first
occurrence of each element, preserving order. -/
def odedup {α : Type} [DecidableEq α] (l : List α) : List α :=
  l.foldl (fun acc x => if x ∈ acc then acc else acc ++ [x]) []

/-- Model of `OrderedSet.add`: append the element if it is not present. -/
def osAdd {α : Type} [DecidableEq α] (l : List α) (x : α) : List α :=
  if x ∈ l then l else l ++ [x]

/-- Model of `OrderedDict` assignment `d[k] = v`: replace the value in
place when the key exists, append otherwise. -/
def odInsert {α β : Type} [DecidableEq α] (l : List (α × β)) (k : α) (v : β) : List (α × β) :=
  if k ∈ l.map Prod.fst then l.map (fun p => if p.1 = k then (k, v) else p) else l ++ [(k, v)]

/-- Boolean prefix test on character lists, the model of Python
`str.startswith`. -/
def isPre : List Char → List Char → Bool
  | [], _ => true
  | _ :: _, [] => false
  | a :: as, b :: bs => a == b && isPre as bs

/-- Worker for `findSub`, carrying the index of the current position. -/
def findSubAux (pat : List Char) : List Char → Nat → Option Nat
  | [], i => if pat = [] then some i else none
  | s@(_ :: rest), i => if isPre pat s then some i else findSubAux pat rest (i + 1)

/-- Lowest index at which `pat` occurs in the scanned list, the model of
Python `str.find` (which returns `-1`, modelled as `none`, when absent). -/
def findSub (pat : List Char) (s : List Char) : Option Nat := findSubAux pat s 0

/-- Model of Python `s.split('/')`: split at every `'/'`, keeping empty
segments, so the result is always nonempty. -/
def splitSlash : List Char → List (List Char)
  | [] => [[]]
  | c :: rest =>
    if c = '/' then [] :: splitSlash rest
    else
      match splitSlash rest with
      | [] => [[c]]
      | seg :: segs => (c :: seg) :: segs

/-- Model of `'/'.join(segments)`. -/
def joinSlash : List (List Char) → List Char
  | [] => []
  | [s] => s
  | s :: rest => s ++ '/' :: joinSlash rest

/-- Final path segment of a string, the model of `s.split('/')[-1]`. -/
def lastName (s : String) : String :=
  String.mk ((splitSlash s.data).getLastD [])

/-- Last three path segments joined by `'/'`, the model of
`'/'.join(s.split('/')[-3:])` (fewer than three segments: all of them). -/
def lastThree (s : String) : String :=
  let segs := splitSlash s.data
  String.mk (joinSlash (segs.drop (segs.length - 3)))

/-- The installed-library marker `$(HOLDIR)/sigobj/` searched for by
`prettify_long_name`. -/
def holdirMarker : List Char := "$(HOLDIR)/sigobj/".data

/-- The project-root marker `/HolBA/` searched for by
`prettify_long_name`. -/
def holbaMarker : List Char := "/HolBA/".data

/-- First rewrite of `prettify_long_name` (lines 120-122): a path that
contains the `$(HOLDIR)/sigobj/` marker becomes `HOL4/<suffix>`. -/
def prettifyStage1 (long_name : String) : List Char :=
  match findSub holdirMarker long_name.data with
  | some i => "HOL4/".data ++ long_name.data.drop (i + holdirMarker.length)
  | none => long_name.data

/-- Model of `prettify_long_name` (lines 117-128): rewrite a path that
contains the `$(HOLDIR)/sigobj/` marker to `HOL4/<suffix>`, then rebase a
path that contains `/HolBA/` to start at the `HolBA` segment. -/
def prettify_long_name (long_name : String) : String :=
  let p2 : List Char :=
    match findSub holbaMarker (prettifyStage1 long_name) with
    | some i => (prettifyStage1 long_name).drop (i + 1)
    | none => prettifyStage1 long_name
  String.mk p2

/-- Model of `get_non_uniques_file_names` (lines 131-142): collect, in
first-collision order, the pretty-form filenames that occur more than once
across the input paths.  The `seen` set is modelled as a list used only
for membership. -/
def get_non_uniques_file_names (paths : List String) : List String :=
  (paths.foldl
    (fun (st : List String × List String) path =>
      let filename := lastName (prettify_long_name path)
      let nu := if filename ∈ st.1 then osAdd st.2 filename else st.2
      (osAdd st.1 filename, nu))
    ([], [])).2

/-- Model of `generate_short_unique_name_mapping` (lines 145-168): after
deduplicating the input collection, map each path to its display name:
the full pretty form when it starts with `HOL4/`, otherwise the bare
filename when it is unique, otherwise the last three path segments. -/
def generate_short_unique_name_mapping (long_file_paths : List String) : List (String × String) :=
  let fps := odedup long_file_paths
  let non_uniques := get_non_uniques_file_names fps
  fps.foldl
    (fun mapping file_path =>
      let short := prettify_long_name file_path
      if isPre "HOL4/".data short.data then mapping ++ [(file_path, short)]
      else
        let filename := lastName short
        if filename ∈ non_uniques then mapping ++ [(file_path, lastThree short)]
        else mapping ++ [(file_path, filename)])
    []

/-- Model of `DependencyGraphNode` (lines 175-179): internal id, ordered
duplicate-free dependency ids, and the inverse-adjacency set filled in by
the builder's second pass. -/
structure DependencyGraphNode where
  id : Nat
  dependencies : List Nat
  dependents : List Nat
deriving DecidableEq, Repr

/-- Model of `DependencyGraph`: the display-name mapping plus the
bidirectional path/id mappings and the id-indexed node collection, all
as insertion-ordered association lists. -/
structure DependencyGraph where
  path_to_name_mapping : List (String × String)
  path_to_id : List (String × Nat)
  id_to_path : List (Nat × String)
  nodes_by_id : List (Nat × DependencyGraphNode)
deriving DecidableEq, Repr

/-- Model of `map(lambda p: self.path_to_id[p], dependencies)` as forced
by the `OrderedSet` constructor: translate every dependency path to its
id, failing (like the Python `KeyError`) on any missing path. -/
def depsToIds (path_to_id : List (String × Nat)) : List String → Option (List Nat)
  | [] => some []
  | d :: ds =>
    match alookup path_to_id d with
    | none => none
    | some i =>
      match depsToIds path_to_id ds with
      | none => none
      | some is => some (i :: is)

/-- Model of the node-building loop of `DependencyGraph.__init__`
(lines 192-198): look up each pair's path and dependency paths, build the
node with deduplicated dependency ids and empty dependents, and store it
under its id with `OrderedDict` assignment semantics. -/
def buildNodes (path_to_id : List (String × Nat)) :
    List (String × List String) → List (Nat × DependencyGraphNode) →
    Option (List (Nat × DependencyGraphNode))
  | [], acc => some acc
  | (p, ds) :: rest, acc =>
    match alookup path_to_id p with
    | none => none
    | some nid =>
      match depsToIds path_to_id ds with
      | none => none
      | some ids => buildNodes path_to_id rest (odInsert acc nid ⟨nid, odedup ids, []⟩)

/-- Model of `self.nodes_by_id[dependency_id].dependents.add(node_id)`
iterated over one node's dependency list (part of lines 200-203), failing
like the Python `KeyError` when a dependency id has no node. -/
def addDependentsFor (nodes : List (Nat × DependencyGraphNode)) (nid : Nat) :
    List Nat → Option (List (Nat × DependencyGraphNode))
  | [] => some nodes
  | d :: ds =>
    match alookup nodes d with
    | none => none
    | some _ =>
      addDependentsFor
        (nodes.map (fun p =>
          if p.1 = d then (p.1, { p.2 with dependents := osAdd p.2.dependents nid }) else p))
        nid ds

/-- Model of the dependents-inversion pass of `DependencyGraph.__init__`
(lines 200-203), iterating over the `(id, dependencies)` pairs captured
from the freshly built nodes (the pass only mutates `dependents`, so the
iterated dependency lists are unaffected by it). -/
def depPass (cur : List (Nat × DependencyGraphNode)) :
    List (Nat × List Nat) → Option (List (Nat × DependencyGraphNode))
  | [] => some cur
  | (nid, ds) :: rest =>
    match addDependentsFor cur nid ds with
    | none => none
    | some cur2 => depPass cur2 rest

/-- Model of `DependencyGraph.__init__` (lines 183-203): assign ids to the
mapping's keys in order, build the nodes, then invert every dependency
edge into the target's dependents set.  `none` models an exception
propagating out of the constructor, so no graph is produced. -/
def DependencyGraph.init (mapping : List (String × String))
    (ext_nodes : List (String × List String)) : Option DependencyGraph :=
  let keys := mapping.map Prod.fst
  let path_to_id := keys.enum.map (fun p => (p.2, p.1))
  let id_to_path := keys.enum
  match buildNodes path_to_id ext_nodes [] with
  | none => none
  | some nodes0 =>
    match depPass nodes0 (nodes0.map (fun p => (p.1, p.2.dependencies))) with
    | none => none
    | some nodes => some ⟨mapping, path_to_id, id_to_path, nodes⟩

/-- Model of the `node_dict` preprocessing of `gen_dependency_graph_in`
(lines 263-273): merge the raw `(path, content)` pairs into an ordered
dict that also has an entry for every path appearing only as a
dependency, then strip each entry's self-reference. -/
def buildNodeDict (nodes : List (String × List String)) : List (String × List String) :=
  let nd := nodes.foldl
    (fun nd pc =>
      let nd := if pc.1 ∈ nd.map Prod.fst then nd else nd ++ [(pc.1, [])]
      pc.2.foldl
        (fun nd line =>
          let nd := if line ∈ nd.map Prod.fst then nd else nd ++ [(line, [])]
          nd.map (fun p => if p.1 = pc.1 then (p.1, osAdd p.2 line) else p))
        nd)
    []
  nd.map (fun p => (p.1, if p.1 ∈ p.2 then p.2.erase p.1 else p.2))

/-- Dependency list of the node stored under an id, the empty list when
the id has no node.  Specification helper for the reduction lemmas. -/
def depsD (g : List (Nat × DependencyGraphNode)) (k : Nat) : List Nat :=
  match alookup g k with
  | none => []
  | some n => n.dependencies

/-- Replace the dependency list of the node stored under `k` by applying
`f`, the model of in-place mutation of one node's `dependencies`. -/
def updDeps (g : List (Nat × DependencyGraphNode)) (k : Nat) (f : List Nat → List Nat) :
    List (Nat × DependencyGraphNode) :=
  g.map (fun p => if p.1 = k then (p.1, { p.2 with dependencies := f p.2.dependencies }) else p)

/-- Model of the inner recursive `remove_common_dependencies` (lines
206-212): walk `nid`'s dependency list, erasing each encountered id from
`base`'s dependencies (silently skipping absent ones, like the
`try/except KeyError`) and recursing into the encountered node.  The
fuel argument makes the unbounded Python recursion total; on acyclic
closed graphs the fuel `nodes.length + 1` used below never runs out. -/
def remove_common_dependencies (fuel : Nat) (g : List (Nat × DependencyGraphNode))
    (base : Nat) (nid : Nat) : List (Nat × DependencyGraphNode) :=
  match fuel with
  | 0 => g
  | fuel + 1 =>
    (depsD g nid).foldl
      (fun g2 d => remove_common_dependencies fuel (updDeps g2 base (fun ds => ds.erase d)) base d)
      g

/-- Model of the body of the outer loop of
`remove_transitive_dependencies` (lines 214-216) for one node: snapshot
the node's current dependency list (`list(node.dependencies)`) and walk
each snapshot entry's closure. -/
def reduceNode (fuel : Nat) (g : List (Nat × DependencyGraphNode)) (nid : Nat) :
    List (Nat × DependencyGraphNode) :=
  (depsD g nid).foldl (fun g2 d => remove_common_dependencies fuel g2 nid d) g

/-- Model of `remove_transitive_dependencies` (lines 205-216) on the node
collection: process every node in insertion order. -/
def removeTransitiveNodes (g : List (Nat × DependencyGraphNode)) :
    List (Nat × DependencyGraphNode) :=
  (g.map Prod.fst).foldl (fun g2 k => reduceNode (g.length + 1) g2 k) g

/-- Model of `remove_transitive_dependencies` on the full graph object:
only the node collection's dependency lists are touched. -/
def DependencyGraph.remove_transitive_dependencies (G : DependencyGraph) : DependencyGraph :=
  { G with nodes_by_id := removeTransitiveNodes G.nodes_by_id }

/-- Uppercase hexadecimal digit character for a value below 16. -/
def hexDigit (n : Nat) : Char :=
  if n < 10 then Char.ofNat (48 + n) else Char.ofNat (55 + n)

/-- Uppercase hexadecimal representation of a natural number, no padding. -/
def toHexU (n : Nat) : List Char :=
  if n < 16 then [hexDigit n]
  else toHexU (n / 16) ++ [hexDigit (n % 16)]
decreasing_by exact Nat.div_lt_self (by omega) (by omega)

/-- Model of Python `format(v, '02X')`: uppercase hexadecimal padded to
at least two digits. -/
def hex2 (n : Nat) : List Char :=
  let s := toHexU n
  if s.length < 2 then '0' :: s else s

/-- Model of `random_color` (lines 58-62) applied to the three
`randint(0, 255)` draws it makes: `'#'` followed by three two-digit
uppercase hexadecimal components. -/
def random_color (r g b : Nat) : String :=
  String.mk ('#' :: (hex2 r ++ hex2 g ++ hex2 b))

/-- Model of `'\n'.join` on the underlying character lists. -/
def joinNLData : List (List Char) → List Char
  | [] => []
  | [l] => l
  | l :: ls => l ++ '\n' :: joinNLData ls

/-- Model of `'\n'.join(dot_lines)`. -/
def joinNL (ls : List String) : String :=
  String.mk (joinNLData (ls.map String.data))

/-- Model of the `all_files` collection loop of `as_dot` (lines
226-230): every path referenced as a node or as a surviving dependency,
in first-encounter order, with `KeyError` on a missing id. -/
def allFilesOf (G : DependencyGraph) : Option (List String) :=
  G.nodes_by_id.foldl
    (fun acc p =>
      match acc with
      | none => none
      | some af =>
        match alookup G.id_to_path p.1 with
        | none => none
        | some pth =>
          p.2.dependencies.foldl
            (fun acc2 d =>
              match acc2 with
              | none => none
              | some af2 =>
                match alookup G.id_to_path d with
                | none => none
                | some dp => some (osAdd af2 dp))
            (some (osAdd af pth)))
    (some [])

/-- Model of the node-declaration loop of `as_dot` (lines 232-236):
produce one `n<i>[label="<name>"]` line per collected path and the
path-to-output-identifier mapping. -/
def nodeLinesAux (mapping : List (String × String)) :
    List String → Nat → Option (List String × List (String × String))
  | [], _ => some ([], [])
  | fp :: rest, i =>
    match alookup mapping fp with
    | none => none
    | some filename =>
      match nodeLinesAux mapping rest (i + 1) with
      | none => none
      | some (ls, nm) =>
        some (("n" ++ toString i ++ "[label=\"" ++ filename ++ "\"]") :: ls,
          (fp, "n" ++ toString i) :: nm)

/-- Model of the inner edge loop of `as_dot` (lines 246-250): one edge
line per dependency of a node, all sharing that node's color. -/
def edgesFor (G : DependencyGraph) (nm : List (String × String))
    (from_node edge_color : String) : List Nat → Option (List String)
  | [] => some []
  | d :: ds =>
    match alookup G.id_to_path d with
    | none => none
    | some dep =>
      match alookup nm dep with
      | none => none
      | some to_node =>
        match edgesFor G nm from_node edge_color ds with
        | none => none
        | some ls =>
          some ((from_node ++ " -> " ++ to_node ++ "[color=\"" ++ edge_color ++ "\"];") :: ls)

/-- Model of the outer edge loop of `as_dot` (lines 242-250): one color
draw per node (`random_color()` is called before the inner loop, so it is
consumed even by nodes without dependencies), indexed by the node's
position in the iteration. -/
def edgeLinesAux (G : DependencyGraph) (nm : List (String × String)) (colors : Nat → String) :
    List (Nat × DependencyGraphNode) → Nat → Option (List String)
  | [], _ => some []
  | p :: rest, j =>
    match alookup G.id_to_path p.1 with
    | none => none
    | some fp =>
      match alookup nm fp with
      | none => none
      | some from_node =>
        match edgesFor G nm from_node (colors j) p.2.dependencies with
        | none => none
        | some ls =>
          match edgeLinesAux G nm colors rest (j + 1) with
          | none => none
          | some more => some (ls ++ more)

/-- Model of the `dot_lines` list built by `as_dot` (lines 218-252). -/
def as_dot_lines (G : DependencyGraph) (colors : Nat → String) : Option (List String) :=
  match allFilesOf G with
  | none => none
  | some all_files =>
    match nodeLinesAux G.path_to_name_mapping all_files 0 with
    | none => none
    | some (nls, nm) =>
      match edgeLinesAux G nm colors G.nodes_by_id 0 with
      | none => none
      | some els =>
        some (["digraph G \x7b", "", "# Nodes", ""] ++ nls
          ++ ["", "# Edges", ""] ++ els ++ ["\x7d"])

/-- Model of `as_dot` (lines 218-253): join the dot lines with newlines,
with the PRNG consumption modelled by the per-node color stream.  `none`
models a `KeyError` escaping the method. -/
def as_dot (G : DependencyGraph) (colors : Nat → String) : Option String :=
  (as_dot_lines G colors).map joinNL

/-- Per-node color stream induced by a stream of `randint(0,255)` triples,
the model of the sequence of `random_color()` results for a given seed. -/
def colorStream (σ : Nat → Nat × Nat × Nat) (i : Nat) : String :=
  random_color (σ i).1 (σ i).2.1 (σ i).2.2

/-- Specification device: the ids encountered by
`remove_common_dependencies` when walking from `nid` with the given fuel —
each dependency of `nid` followed, recursively, by that dependency's own
walk.  The order matches the order in which the walk erases ids from the
base node. -/
def walkIds (g : List (Nat × DependencyGraphNode)) : Nat → Nat → List Nat
  | 0, _ => []
  | fuel + 1, nid => (depsD g nid).flatMap (fun d => d :: walkIds g fuel d)

/-- Topological ranking: every dependency edge strictly decreases the
rank. -/
def RankOk (g : List (Nat × DependencyGraphNode)) (rank : Nat → Nat) : Prop :=
  ∀ p ∈ g, ∀ d ∈ p.2.dependencies, rank d < rank p.1

/-- Acyclicity of the dependency relation, phrased as the existence of a
topological ranking (for finite graphs this is equivalent to the absence
of directed cycles). -/
def Acyclic (g : List (Nat × DependencyGraphNode)) : Prop :=
  ∃ rank : Nat → Nat, RankOk g rank

/-- Well-formedness maintained by `DependencyGraph.init`: ids are unique
and each node's dependency list is duplicate-free (it came from an
`OrderedSet`). -/
def WFNodes (g : List (Nat × DependencyGraphNode)) : Prop :=
  (g.map Prod.fst).Nodup ∧ ∀ p ∈ g, p.2.dependencies.Nodup

/-- Instrumented variant of the per-node loop body of
`remove_transitive_dependencies`: identical to `reduceNode` but also
returns the list of direct dependencies whose closures were walked, in
walk order. -/
def reduceNodeWalked (fuel : Nat) (g : List (Nat × DependencyGraphNode)) (nid : Nat) :
    List (Nat × DependencyGraphNode) × List Nat :=
  (depsD g nid).foldl
    (fun st d => (remove_common_dependencies fuel st.1 nid d, st.2 ++ [d]))
    (g, [])

/-- Instrumented variant of `remove_transitive_dependencies`: the final
node collection together with, for every node in processing order, the
direct dependencies whose closures were walked on its behalf. -/
def removeTransitiveWalked (g : List (Nat × DependencyGraphNode)) :
    List (Nat × DependencyGraphNode) × List (Nat × List Nat) :=
  (g.map Prod.fst).foldl
    (fun st k =>
      let r := reduceNodeWalked (g.length + 1) st.1 k
      (r.1, st.2 ++ [(k, r.2)]))
    (g, [])

/-- Specification device: scan of the states of the outer loop of
`remove_transitive_dependencies`, recording for each processed node its
dependency list at the moment its processing starts. -/
def snapshotScan (fuel : Nat) : List Nat → List (Nat × DependencyGraphNode) →
    List (Nat × List Nat)
  | [], _ => []
  | k :: ks, h => (k, depsD h k) :: snapshotScan fuel ks (reduceNode fuel h k)

/-- Uppercase-hexadecimal-digit test (a digit of a `%02X` rendering). -/
def hexU (c : Char) : Bool :=
  decide ((48 ≤ c.toNat ∧ c.toNat ≤ 57) ∨ (65 ≤ c.toNat ∧ c.toNat ≤ 70))

/-- Boolean test for a leading `color="#RRGGBB"` token, the shape every
rendered edge color has. -/
def startsColorPat : List Char → Bool
  | 'c' :: 'o' :: 'l' :: 'o' :: 'r' :: '=' :: '"' :: '#' :: a :: b :: c :: d :: e :: f :: '"' :: _ =>
    hexU a && hexU b && hexU c && hexU d && hexU e && hexU f
  | _ => false

/-- Erase every `color="#RRGGBB"` substring (left to right, skipping the
whole 15-character token on a match). -/
def eraseColors : List Char → List Char
  | [] => []
  | ch :: rest =>
    if startsColorPat (ch :: rest) then eraseColors (rest.drop 14)
    else ch :: eraseColors rest
termination_by l => l.length
decreasing_by
  · simp only [List.length_drop, List.length_cons]; omega
  · simp

/-- String form of `eraseColors`. -/
def eraseColorsStr (s : String) : String := String.mk (eraseColors s.data)

/-- The 15-character token `color="#<hex>"` for a six-digit hex body. -/
def colorPat (h : List Char) : List Char :=
  'c' :: 'o' :: 'l' :: 'o' :: 'r' :: '=' :: '"' :: '#' :: (h ++ ['"'])

/-- A valid six-digit uppercase hexadecimal color body. -/
def ValidHex (h : List Char) : Prop := h.length = 6 ∧ ∀ c ∈ h, hexU c = true

/-- Character lists that are equal except inside complete `color="#…"`
tokens, where both carry valid hex bodies.  The relation ties together
the outputs of `as_dot` under two different PRNG streams. -/
inductive ColorAligned : List Char → List Char → Prop
  | nil : ColorAligned [] []
  | cons (c : Char) {xs ys : List Char} : ColorAligned xs ys → ColorAligned (c :: xs) (c :: ys)
  | pat {h1 h2 xs ys : List Char} : ValidHex h1 → ValidHex h2 → ColorAligned xs ys →
      ColorAligned (colorPat h1 ++ xs) (colorPat h2 ++ ys)

/-- Membership of a successful lookup's pair. -/
theorem alookup_mem {α β : Type} [DecidableEq α] {l : List (α × β)} {k : α} {v : β}
    (h : alookup l k = some v) : (k, v) ∈ l := by
  induction l with
  | nil => simp [alookup] at h
  | cons p t ih =>
    obtain ⟨a, b⟩ := p
    by_cases hk : a = k
    · simp [alookup, hk] at h
      subst hk
      subst h
      exact List.mem_cons_self _ _
    · simp [alookup, hk] at h
      exact List.mem_cons_of_mem _ (ih h)

/-- Keys are unchanged by `updDeps`. -/
theorem updDeps_keys (g : List (Nat × DependencyGraphNode)) (k : Nat) (f : List Nat → List Nat) :
    (updDeps g k f).map Prod.fst = g.map Prod.fst := by
  induction g with
  | nil => rfl
  | cons p t ih =>
    obtain ⟨a, n⟩ := p
    by_cases hk : a = k <;> simp [updDeps, hk] at ih ⊢ <;> exact ih

/-- Lookup away from the updated key is unchanged by `updDeps`. -/
theorem alookup_updDeps_ne {g : List (Nat × DependencyGraphNode)} {k j : Nat}
    (f : List Nat → List Nat) (h : j ≠ k) :
    alookup (updDeps g k f) j = alookup g j := by
  induction g with
  | nil => rfl
  | cons p t ih =>
    obtain ⟨a, n⟩ := p
    by_cases hk : a = k
    · subst hk
      have haj : ¬ a = j := fun hh => h hh.symm
      simp [updDeps, alookup, haj] at ih ⊢
      exact ih
    · by_cases hj : a = j <;> simp [updDeps, alookup, hk, hj, h] at ih ⊢
      all_goals try exact ih

/-- Lookup at the updated key returns the transformed node. -/
theorem alookup_updDeps_self (g : List (Nat × DependencyGraphNode)) (k : Nat)
    (f : List Nat → List Nat) :
    alookup (updDeps g k f) k =
      (alookup g k).map (fun n => { n with dependencies := f n.dependencies }) := by
  induction g with
  | nil => rfl
  | cons p t ih =>
    obtain ⟨a, n⟩ := p
    by_cases hk : a = k
    · subst hk
      simp [updDeps, alookup]
    · simp only [updDeps, List.map_cons, if_neg hk] at ih ⊢
      simp only [alookup, if_neg hk]
      exact ih

/-- Two updates at the same key fuse. -/
theorem updDeps_updDeps (g : List (Nat × DependencyGraphNode)) (k : Nat)
    (f f2 : List Nat → List Nat) :
    updDeps (updDeps g k f) k f2 = updDeps g k (fun ds => f2 (f ds)) := by
  induction g with
  | nil => rfl
  | cons p t ih =>
    obtain ⟨a, n⟩ := p
    by_cases hk : a = k <;> simp [updDeps, hk] at ih ⊢ <;> exact ih

/-- An update whose function fixes every matching entry is the identity. -/
theorem updDeps_nochange {g : List (Nat × DependencyGraphNode)} {k : Nat}
    {f : List Nat → List Nat}
    (h : ∀ p ∈ g, p.1 = k → f p.2.dependencies = p.2.dependencies) :
    updDeps g k f = g := by
  induction g with
  | nil => rfl
  | cons p t ih =>
    obtain ⟨a, n⟩ := p
    have ht : updDeps t k f = t := ih (fun q hq => h q (List.mem_cons_of_mem _ hq))
    by_cases hk : a = k
    · have hn : f n.dependencies = n.dependencies := h (a, n) (List.mem_cons_self _ _) hk
      subst hk
      simp [updDeps, hn] at ht ⊢
      exact ht
    · simp [updDeps, hk] at ht ⊢
      exact ht

/-- `depsD` away from the updated key. -/
theorem depsD_updDeps_ne {g : List (Nat × DependencyGraphNode)} {k j : Nat}
    (f : List Nat → List Nat) (h : j ≠ k) :
    depsD (updDeps g k f) j = depsD g j := by
  simp [depsD, alookup_updDeps_ne f h]

/-- An example diamond: node 0 depends on 1 and 2, node 1 depends on 2. -/
def exampleDiamond : List (Nat × DependencyGraphNode) :=
  [(0, ⟨0, [1, 2], []⟩), (1, ⟨1, [2], []⟩), (2, ⟨2, [], []⟩)]

/-- Claim C1: for input pairs `(a, [b, c])` and `(b, [c])` and a mapping
covering `a`, `b`, `c`, the builder (the `node_dict` merge of
`gen_dependency_graph_in` followed by `DependencyGraph.__init__`)
produces exactly the nodes `a`, `b`, `c` (ids 0, 1, 2) with
`dependencies(a) = [b, c]` in that order and `dependencies(b) = [c]`;
after one run of `remove_transitive_dependencies`,
`dependencies(a) = [b]` (the edge to `c` was removed via `b`'s closure)
and `dependencies(b) = [c]`. -/
theorem c1_scenario_builder_and_reduction :
    (DependencyGraph.init [("a", "a"), ("b", "b"), ("c", "c")]
        (buildNodeDict [("a", ["b", "c"]), ("b", ["c"])])).map
      (fun G =>
        (G.nodes_by_id.map Prod.fst, G.path_to_id,
          depsD G.nodes_by_id 0, depsD G.nodes_by_id 1,
          depsD G.remove_transitive_dependencies.nodes_by_id 0,
          depsD G.remove_transitive_dependencies.nodes_by_id 1)) =
    some ([0, 1, 2], [("a", 0), ("b", 1), ("c", 2)], [1, 2], [2], [1], [2]) := by
  rfl

/-- Claim C5, counterexample: `DependencyGraph.__init__` itself does not
strip self-references.  Fed the single pair `("a", ["a"])` directly (not
through the `node_dict` preprocessing of `gen_dependency_graph_in`), it
produces a graph — rather than failing — in which node `a` (id 0) has
dependency list `[0]`, so `id ∈ dependencies`, violating the claimed
invariant `id ∉ dependencies` during construction itself. -/
theorem c5_counterexample_init_keeps_self_reference :
    (DependencyGraph.init [("a", "a")] [("a", ["a"])]).map
      (fun G => depsD G.nodes_by_id 0) = some [0] := by
  rfl

/-- Claim C2, counterexample: on the diamond `0 → [1, 2]`, `1 → [2]`,
the walk of direct dependency `1` removes `2` from `dependencies(0)`
(after that walk the list is `[1]`), yet `2`'s closure is still walked
afterwards: the walked-roots list for node 0 is the snapshot `[1, 2]`
taken by `list(node.dependencies)`, not the live mutating set, which no
longer contains `2` when the iteration reaches it. -/
theorem c2_counterexample_snapshot_iteration :
    (reduceNodeWalked (exampleDiamond.length + 1) exampleDiamond 0).2 = [1, 2] ∧
    depsD (remove_common_dependencies (exampleDiamond.length + 1) exampleDiamond 0 1) 0
      = [1] := by
  constructor <;> rfl

/-- Failed lookup characterised by key absence. -/
theorem alookup_eq_none_iff {α β : Type} [DecidableEq α] (l : List (α × β)) (k : α) :
    alookup l k = none ↔ k ∉ l.map Prod.fst := by
  induction l with
  | nil => simp [alookup]
  | cons p t ih =>
    obtain ⟨a, b⟩ := p
    by_cases hk : a = k
    · simp [alookup, hk]
    · simp only [alookup, if_neg hk, List.map_cons, List.mem_cons, ih]
      constructor
      · intro hn
        rintro (h | h)
        · exact hk h.symm
        · exact hn h
      · intro hn h
        exact hn (Or.inr h)

/-- Membership in an `odedup` result. -/
theorem mem_odedup {α : Type} [DecidableEq α] (l : List α) (x : α) :
    x ∈ odedup l ↔ x ∈ l := by
  have general : ∀ (l acc : List α),
      x ∈ l.foldl (fun acc y => if y ∈ acc then acc else acc ++ [y]) acc ↔ x ∈ acc ∨ x ∈ l := by
    intro l
    induction l with
    | nil => simp
    | cons y t ih =>
      intro acc
      by_cases hy : y ∈ acc
      · rw [List.foldl_cons, if_pos hy, ih]
        constructor
        · rintro (h | h)
          · exact Or.inl h
          · exact Or.inr (List.mem_cons_of_mem _ h)
        · rintro (h | h)
          · exact Or.inl h
          · rcases List.mem_cons.mp h with h | h
            · exact Or.inl (h ▸ hy)
            · exact Or.inr h
      · rw [List.foldl_cons, if_neg hy, ih]
        simp only [List.mem_append, List.mem_singleton, List.mem_cons]
        tauto
  rw [odedup, general]
  simp

/-- Keys reachable after an `odInsert`. -/
theorem odInsert_keys_subset {α β : Type} [DecidableEq α] {l : List (α × β)} {k x : α} {v : β}
    (h : x ∈ (odInsert l k v).map Prod.fst) : x ∈ l.map Prod.fst ∨ x = k := by
  by_cases hk : k ∈ l.map Prod.fst
  · rw [odInsert, if_pos hk] at h
    simp only [List.map_map, List.mem_map] at h
    obtain ⟨p, hp, hx⟩ := h
    simp only [Function.comp_apply] at hx
    by_cases hpk : p.1 = k
    · rw [if_pos hpk] at hx
      exact Or.inr hx.symm
    · rw [if_neg hpk] at hx
      exact Or.inl (hx ▸ List.mem_map_of_mem Prod.fst hp)
  · rw [odInsert, if_neg hk] at h
    simp only [List.map_append, List.mem_append] at h
    rcases h with h | h
    · exact Or.inl h
    · simp at h
      exact Or.inr h

/-- The inserted pair is present after an `odInsert`. -/
theorem mem_odInsert_self {α β : Type} [DecidableEq α] (l : List (α × β)) (k : α) (v : β) :
    (k, v) ∈ odInsert l k v := by
  by_cases hk : k ∈ l.map Prod.fst
  · rw [odInsert, if_pos hk]
    obtain ⟨p, hp, hfst⟩ := List.mem_map.mp hk
    refine List.mem_map.mpr ⟨p, hp, ?_⟩
    simp [hfst]
  · rw [odInsert, if_neg hk]
    simp

/-- Pairs with a different key survive an `odInsert`. -/
theorem mem_odInsert_of_ne {α β : Type} [DecidableEq α] {l : List (α × β)} {k0 k : α}
    {v0 v : β} (h : (k0, v0) ∈ l) (hne : k0 ≠ k) : (k0, v0) ∈ odInsert l k v := by
  by_cases hk : k ∈ l.map Prod.fst
  · rw [odInsert, if_pos hk]
    refine List.mem_map.mpr ⟨(k0, v0), h, ?_⟩
    simp [hne]
  · rw [odInsert, if_neg hk]
    exact List.mem_append_left _ h

/-- A missing dependency path fails the id translation. -/
theorem depsToIds_eq_none {pti : List (String × Nat)} {ds : List String} {d : String}
    (hd : d ∈ ds) (habs : alookup pti d = none) : depsToIds pti ds = none := by
  induction ds with
  | nil => cases hd
  | cons e t ih =>
    rcases List.mem_cons.mp hd with h | h
    · subst h
      simp [depsToIds, habs]
    · rw [depsToIds]
      cases he : alookup pti e with
      | none => rfl
      | some i => rw [ih h]

/-- A translated dependency id is in the translated list. -/
theorem depsToIds_mem {pti : List (String × Nat)} {ds : List String} {ids : List Nat}
    {d : String} {i : Nat} (h : depsToIds pti ds = some ids) (hd : d ∈ ds)
    (hi : alookup pti d = some i) : i ∈ ids := by
  induction ds generalizing ids with
  | nil => cases hd
  | cons e t ih =>
    rw [depsToIds] at h
    cases he : alookup pti e with
    | none => rw [he] at h; cases h
    | some j =>
      rw [he] at h
      cases ht : depsToIds pti t with
      | none => rw [ht] at h; cases h
      | some is =>
        rw [ht] at h
        cases h
        rcases List.mem_cons.mp hd with hde | hdt
        · subst hde
          rw [hi] at he
          cases he
          exact List.mem_cons_self _ _
        · exact List.mem_cons_of_mem _ (ih ht hdt)

/-- Every translated id comes from some dependency path. -/
theorem depsToIds_mem_rev {pti : List (String × Nat)} {ds : List String} {ids : List Nat}
    {i : Nat} (h : depsToIds pti ds = some ids) (hi : i ∈ ids) :
    ∃ d ∈ ds, alookup pti d = some i := by
  induction ds generalizing ids with
  | nil =>
    rw [depsToIds] at h
    cases h
    cases hi
  | cons e t ih =>
    rw [depsToIds] at h
    cases he : alookup pti e with
    | none => rw [he] at h; cases h
    | some j =>
      rw [he] at h
      cases ht : depsToIds pti t with
      | none => rw [ht] at h; cases h
      | some is =>
        rw [ht] at h
        cases h
        rcases List.mem_cons.mp hi with hij | his
        · exact ⟨e, List.mem_cons_self _ _, hij ▸ he⟩
        · obtain ⟨d, hd, hal⟩ := ih ht his
          exact ⟨d, List.mem_cons_of_mem _ hd, hal⟩

/-- A pair with an untranslatable dependency fails the node-building
loop, whatever the accumulator. -/
theorem buildNodes_eq_none {pti : List (String × Nat)} {ext : List (String × List String)}
    {p : String} {ds : List String}
    (hmem : (p, ds) ∈ ext) (hds : depsToIds pti ds = none) :
    ∀ acc, buildNodes pti ext acc = none := by
  induction ext with
  | nil => cases hmem
  | cons q t ih =>
    intro acc
    obtain ⟨qp, qds⟩ := q
    rcases List.mem_cons.mp hmem with h | h
    · cases h
      rw [buildNodes]
      cases hq : alookup pti p with
      | none => rfl
      | some nid => rw [hds]
    · rw [buildNodes]
      cases hq : alookup pti qp with
      | none => rfl
      | some nid =>
        cases hqds : depsToIds pti qds with
        | none => rfl
        | some ids => exact ih h _

/-- Reading the swapped enumeration: a successful id lookup pins the path
at that index of the key list. -/
theorem alookup_enumFrom_swap (keys : List String) :
    ∀ (n : Nat) (x : String) (i : Nat),
      alookup ((List.enumFrom n keys).map (fun p => (p.2, p.1))) x = some i →
      keys[i - n]? = some x ∧ n ≤ i := by
  induction keys with
  | nil => intro n x i h; simp [alookup] at h
  | cons a t ih =>
    intro n x i h
    have hstep : List.enumFrom n (a :: t) = (n, a) :: List.enumFrom (n + 1) t := rfl
    rw [hstep, List.map_cons] at h
    by_cases hax : a = x
    · rw [alookup, if_pos hax] at h
      cases h
      subst hax
      simp
    · rw [alookup, if_neg hax] at h
      obtain ⟨hget, hle⟩ := ih (n + 1) x i h
      have hlt : n + 1 ≤ i := hle
      refine ⟨?_, by omega⟩
      have : i - n = (i - (n + 1)) + 1 := by omega
      rw [this]
      simpa using hget

/-- Injectivity of the path-to-id lookup: two paths that translate to the
same id are equal. -/
theorem alookup_path_to_id_inj {keys : List String} {x y : String} {i : Nat}
    (hx : alookup ((List.enum keys).map (fun p => (p.2, p.1))) x = some i)
    (hy : alookup ((List.enum keys).map (fun p => (p.2, p.1))) y = some i) : x = y := by
  have hx2 := (alookup_enumFrom_swap keys 0 x i hx).1
  have hy2 := (alookup_enumFrom_swap keys 0 y i hy).1
  simp only [Nat.sub_zero] at hx2 hy2
  rw [hx2] at hy2
  exact (Option.some_inj.mp hy2)

/-- The keys of the swapped enumeration are the key list itself. -/
theorem mapFst_enum_swap (keys : List String) :
    ((List.enum keys).map (fun p => (p.2, p.1))).map Prod.fst = keys := by
  rw [List.map_map]
  exact List.enumFrom_map_snd 0 keys

/-- A present key always translates to some id. -/
theorem alookup_path_to_id_total {keys : List String} {x : String}
    (h : x ∈ keys) :
    ∃ i, alookup ((List.enum keys).map (fun p => (p.2, p.1))) x = some i := by
  cases hl : alookup ((List.enum keys).map (fun p => (p.2, p.1))) x with
  | none =>
    rw [alookup_eq_none_iff, mapFst_enum_swap] at hl
    exact absurd h hl
  | some i => exact ⟨i, rfl⟩

/-- Keys of a dependents-field update. -/
theorem dependentsUpdate_keys (nodes : List (Nat × DependencyGraphNode)) (d nid : Nat) :
    ((nodes.map (fun p => if p.1 = d then
        (p.1, { p.2 with dependents := osAdd p.2.dependents nid }) else p)).map Prod.fst)
      = nodes.map Prod.fst := by
  rw [List.map_map]
  apply List.map_congr_left
  intro p hp
  by_cases hpd : p.1 = d <;> simp [hpd]

/-- The dependents update of one pass step preserves the key list. -/
theorem addDependentsFor_keys {nodes r : List (Nat × DependencyGraphNode)} {nid : Nat}
    {ds : List Nat} (h : addDependentsFor nodes nid ds = some r) :
    r.map Prod.fst = nodes.map Prod.fst := by
  induction ds generalizing nodes with
  | nil =>
    rw [addDependentsFor] at h
    cases h
    rfl
  | cons d t ih =>
    rw [addDependentsFor] at h
    cases hl : alookup nodes d with
    | none => rw [hl] at h; cases h
    | some n =>
      rw [hl] at h
      rw [ih h]
      exact dependentsUpdate_keys nodes d nid

/-- A successful dependents update requires every dependency id to be a
node key. -/
theorem addDependentsFor_mem {nodes r : List (Nat × DependencyGraphNode)} {nid : Nat}
    {ds : List Nat} (h : addDependentsFor nodes nid ds = some r) :
    ∀ x ∈ ds, x ∈ nodes.map Prod.fst := by
  induction ds generalizing nodes with
  | nil => intro x hx; cases hx
  | cons d t ih =>
    intro x hx
    rw [addDependentsFor] at h
    cases hl : alookup nodes d with
    | none => rw [hl] at h; cases h
    | some n =>
      rw [hl] at h
      rcases List.mem_cons.mp hx with hxd | hxt
      · subst hxd
        by_contra habs
        rw [← alookup_eq_none_iff] at habs
        rw [habs] at hl
        cases hl
      · have hmem := ih h x hxt
        rw [dependentsUpdate_keys nodes d nid] at hmem
        exact hmem

/-- A successful dependents pass requires every iterated dependency id to
be a key of the node collection. -/
theorem depPass_mem {cur r : List (Nat × DependencyGraphNode)}
    {items : List (Nat × List Nat)} (h : depPass cur items = some r) :
    ∀ it ∈ items, ∀ x ∈ it.2, x ∈ cur.map Prod.fst := by
  induction items generalizing cur with
  | nil => intro it hit; cases hit
  | cons q t ih =>
    intro it hit x hx
    obtain ⟨nid, ds⟩ := q
    rw [depPass] at h
    cases ha : addDependentsFor cur nid ds with
    | none => rw [ha] at h; cases h
    | some cur2 =>
      rw [ha] at h
      rcases List.mem_cons.mp hit with hq | ht
      · subst hq
        exact addDependentsFor_mem ha x hx
      · have := ih h it ht x hx
        rw [addDependentsFor_keys ha] at this
        exact this

/-- Pairs whose key no later pair re-targets survive the node-building
loop. -/
theorem buildNodes_preserve {pti : List (String × Nat)} {ext : List (String × List String)}
    {acc out : List (Nat × DependencyGraphNode)} {k : Nat} {v : DependencyGraphNode}
    (h : buildNodes pti ext acc = some out) (hv : (k, v) ∈ acc)
    (hno : ∀ q ∈ ext, alookup pti q.1 ≠ some k) : (k, v) ∈ out := by
  induction ext generalizing acc with
  | nil =>
    rw [buildNodes] at h
    cases h
    exact hv
  | cons q t ih =>
    obtain ⟨qp, qds⟩ := q
    rw [buildNodes] at h
    cases hq : alookup pti qp with
    | none => rw [hq] at h; cases h
    | some nid =>
      rw [hq] at h
      cases hqds : depsToIds pti qds with
      | none => rw [hqds] at h; cases h
      | some ids =>
        rw [hqds] at h
        have hkni : k ≠ nid := by
          intro hkn
          exact hno (qp, qds) (List.mem_cons_self _ _) (hkn ▸ hq)
        exact ih h (mem_odInsert_of_ne hv hkni)
          (fun r hr => hno r (List.mem_cons_of_mem _ hr))

/-- Every key of the built node collection is the translated id of some
input pair's path (starting from an empty accumulator: of exactly those). -/
theorem buildNodes_keys {pti : List (String × Nat)} {ext : List (String × List String)}
    {acc out : List (Nat × DependencyGraphNode)}
    (h : buildNodes pti ext acc = some out) :
    ∀ k ∈ out.map Prod.fst, k ∈ acc.map Prod.fst ∨ ∃ q ∈ ext, alookup pti q.1 = some k := by
  induction ext generalizing acc with
  | nil =>
    rw [buildNodes] at h
    cases h
    exact fun k hk => Or.inl hk
  | cons q t ih =>
    obtain ⟨qp, qds⟩ := q
    rw [buildNodes] at h
    cases hq : alookup pti qp with
    | none => rw [hq] at h; cases h
    | some nid =>
      rw [hq] at h
      cases hqds : depsToIds pti qds with
      | none => rw [hqds] at h; cases h
      | some ids =>
        rw [hqds] at h
        intro k hk
        rcases ih h k hk with hacc | ⟨r, hr, hal⟩
        · rcases odInsert_keys_subset hacc with hacc2 | hkn
          · exact Or.inl hacc2
          · exact Or.inr ⟨(qp, qds), List.mem_cons_self _ _, hkn ▸ hq⟩
        · exact Or.inr ⟨r, List.mem_cons_of_mem _ hr, hal⟩

/-- With duplicate-free input paths and an injective path-to-id lookup,
the node built for an input pair survives to the final collection. -/
theorem buildNodes_pair {pti : List (String × Nat)} {ext : List (String × List String)}
    {acc out : List (Nat × DependencyGraphNode)} {p : String} {ds : List String}
    (h : buildNodes pti ext acc = some out)
    (hinj : ∀ x y i, alookup pti x = some i → alookup pti y = some i → x = y)
    (hnd : (ext.map Prod.fst).Nodup) (hmem : (p, ds) ∈ ext) :
    ∃ k ids, alookup pti p = some k ∧ depsToIds pti ds = some ids ∧
      (k, (⟨k, odedup ids, []⟩ : DependencyGraphNode)) ∈ out := by
  induction ext generalizing acc with
  | nil => cases hmem
  | cons q t ih =>
    obtain ⟨qp, qds⟩ := q
    rw [buildNodes] at h
    cases hq : alookup pti qp with
    | none => rw [hq] at h; cases h
    | some nid =>
      rw [hq] at h
      cases hqds : depsToIds pti qds with
      | none => rw [hqds] at h; cases h
      | some ids =>
        rw [hqds] at h
        rcases List.mem_cons.mp hmem with hhead | htail
        · injection hhead with hp1 hp2
          subst hp1
          subst hp2
          refine ⟨nid, ids, hq, hqds, ?_⟩
          refine buildNodes_preserve h (mem_odInsert_self acc nid _) ?_
          intro r hr hal
          have hrp : r.1 = p := hinj r.1 p nid hal hq
          have hnotin : p ∉ t.map Prod.fst := by
            rw [List.map_cons] at hnd
            exact (List.nodup_cons.mp hnd).1
          exact hnotin (hrp ▸ List.mem_map_of_mem Prod.fst hr)
        · have hndt : (t.map Prod.fst).Nodup := by
            rw [List.map_cons] at hnd
            exact (List.nodup_cons.mp hnd).2
          exact ih h hndt htail

/-- Definitional unfolding of the constructor into its two stages. -/
theorem init_unfold (mapping : List (String × String)) (ext : List (String × List String)) :
    DependencyGraph.init mapping ext =
      (match buildNodes ((mapping.map Prod.fst).enum.map (fun q => (q.2, q.1))) ext [] with
       | none => none
       | some nodes0 =>
         match depPass nodes0 (nodes0.map (fun q => (q.1, q.2.dependencies))) with
         | none => none
         | some nodes =>
           some ⟨mapping, (mapping.map Prod.fst).enum.map (fun q => (q.2, q.1)),
             (mapping.map Prod.fst).enum, nodes⟩) := rfl

/-- Claim C6: if any pair passed to the builder lists a dependency path
that is absent from the path-to-id mapping, `DependencyGraph.__init__`
fails (the `KeyError` raised when translating that dependency propagates,
modelled by `none`) and no graph object is produced; the missing
dependency is never silently dropped. -/
theorem c6_missing_dependency_path_fails (mapping : List (String × String))
    (ext_nodes : List (String × List String)) (p d : String) (ds : List String)
    (hmem : (p, ds) ∈ ext_nodes) (hd : d ∈ ds)
    (habs : d ∉ mapping.map Prod.fst) :
    DependencyGraph.init mapping ext_nodes = none := by
  have hpti : alookup ((mapping.map Prod.fst).enum.map (fun q => (q.2, q.1))) d = none := by
    rw [alookup_eq_none_iff, mapFst_enum_swap]
    exact habs
  have hb := buildNodes_eq_none hmem (depsToIds_eq_none hd hpti) []
  rw [init_unfold, hb]

/-- Witness for C6 at a concrete input: the pair `("a", ["b"])` with a
mapping covering only `a` makes construction fail. -/
theorem c6_missing_dependency_path_fails_witness :
    DependencyGraph.init [("a", "a")] [("a", ["b"])] = none :=
  c6_missing_dependency_path_fails [("a", "a")] [("a", ["b"])] "a" "b" ["b"]
    (by decide) (by decide) (by decide)

/-- Claim C10: a dependency path that is present in the path-to-id
mapping but is never itself a pair's node path makes
`DependencyGraph.__init__` fail with no graph produced, and whenever the
node-building stage itself succeeded, the failure is the lookup in the
dependents-inversion pass (`nodes_by_id` has no entry for that
dependency's id). -/
theorem c10_dependency_without_node_fails (mapping : List (String × String))
    (ext_nodes : List (String × List String)) (p d : String) (ds : List String)
    (hps : (ext_nodes.map Prod.fst).Nodup)
    (hmem : (p, ds) ∈ ext_nodes) (hd : d ∈ ds)
    (hin : d ∈ mapping.map Prod.fst)
    (hnot : ∀ q ∈ ext_nodes, q.1 ≠ d) :
    DependencyGraph.init mapping ext_nodes = none ∧
      ∀ nodes0, buildNodes ((mapping.map Prod.fst).enum.map (fun q => (q.2, q.1)))
          ext_nodes [] = some nodes0 →
        depPass nodes0 (nodes0.map (fun q => (q.1, q.2.dependencies))) = none := by
  have hinj : ∀ x y i,
      alookup ((mapping.map Prod.fst).enum.map (fun q => (q.2, q.1))) x = some i →
      alookup ((mapping.map Prod.fst).enum.map (fun q => (q.2, q.1))) y = some i →
      x = y := fun x y i hx hy => alookup_path_to_id_inj hx hy
  have hdpnone : ∀ nodes0,
      buildNodes ((mapping.map Prod.fst).enum.map (fun q => (q.2, q.1))) ext_nodes []
        = some nodes0 →
      depPass nodes0 (nodes0.map (fun q => (q.1, q.2.dependencies))) = none := by
    intro nodes0 hb
    cases hdp : depPass nodes0 (nodes0.map (fun q => (q.1, q.2.dependencies))) with
    | none => rfl
    | some r =>
      exfalso
      obtain ⟨k, ids, hpk, hids, hnode⟩ := buildNodes_pair hb hinj hps hmem
      obtain ⟨i, hdi⟩ := alookup_path_to_id_total hin
      have hiids : i ∈ ids := depsToIds_mem hids hd hdi
      have hiod : i ∈ odedup ids := (mem_odedup ids i).mpr hiids
      have hitem : (k, odedup ids) ∈ nodes0.map (fun q => (q.1, q.2.dependencies)) :=
        List.mem_map.mpr ⟨(k, ⟨k, odedup ids, []⟩), hnode, rfl⟩
      have hkey := depPass_mem hdp (k, odedup ids) hitem i hiod
      rcases buildNodes_keys hb i hkey with h0 | ⟨q, hq, hal⟩
      · simp at h0
      · exact hnot q hq (hinj q.1 d i hal hdi)
  refine ⟨?_, hdpnone⟩
  rw [init_unfold]
  cases hb : buildNodes ((mapping.map Prod.fst).enum.map (fun q => (q.2, q.1)))
      ext_nodes [] with
  | none => rfl
  | some nodes0 => simp only [hdpnone nodes0 hb]

/-- Witness for C10 at a concrete input: `b` is in the mapping but never a
node path, so construction fails (in the dependents pass). -/
theorem c10_dependency_without_node_fails_witness :
    DependencyGraph.init [("a", "a"), ("b", "b")] [("a", ["b"])] = none :=
  (c10_dependency_without_node_fails [("a", "a"), ("b", "b")] [("a", ["b"])] "a" "b" ["b"]
    (by decide) (by decide) (by decide) (by decide) (by decide)).1

/-- `osAdd` preserves duplicate-freeness. -/
theorem osAdd_nodup {α : Type} [DecidableEq α] {l : List α} (h : l.Nodup) (x : α) :
    (osAdd l x).Nodup := by
  rw [osAdd]
  by_cases hx : x ∈ l
  · rw [if_pos hx]; exact h
  · rw [if_neg hx, List.nodup_append]
    exact ⟨h, List.nodup_singleton x, fun a ha hb => hx ((List.mem_singleton.mp hb) ▸ ha)⟩

/-- Case analysis for membership after an `odInsert`. -/
theorem mem_odInsert_cases {α β : Type} [DecidableEq α] {l : List (α × β)} {k : α} {v : β}
    {e : α × β} (h : e ∈ odInsert l k v) : e ∈ l ∨ e = (k, v) := by
  by_cases hk : k ∈ l.map Prod.fst
  · rw [odInsert, if_pos hk] at h
    obtain ⟨p, hp, he⟩ := List.mem_map.mp h
    by_cases hpk : p.1 = k
    · rw [if_pos hpk] at he
      exact Or.inr he.symm
    · rw [if_neg hpk] at he
      exact Or.inl (he ▸ hp)
  · rw [odInsert, if_neg hk] at h
    rcases List.mem_append.mp h with h | h
    · exact Or.inl h
    · exact Or.inr (List.mem_singleton.mp h)

/-- Fold-preservation of a predicate on the accumulator. -/
theorem foldl_preserve {α β : Type} (P : β → Prop) (step : β → α → β)
    (hstep : ∀ acc x, P acc → P (step acc x)) :
    ∀ (l : List α) (b : β), P b → P (l.foldl step b) := by
  intro l
  induction l with
  | nil => exact fun b h => h
  | cons x t ih =>
    intro b h
    exact ih _ (hstep b x h)

/-- Every dependency list produced by the `node_dict` preprocessing is
duplicate-free, and no entry lists its own path: the self-reference loop
of `gen_dependency_graph_in` strips it. -/
theorem buildNodeDict_no_self (pairs : List (String × List String)) :
    ∀ q ∈ buildNodeDict pairs, q.2.Nodup ∧ q.1 ∉ q.2 := by
  have hfold : ∀ q ∈ pairs.foldl
      (fun nd pc =>
        let nd := if pc.1 ∈ nd.map Prod.fst then nd else nd ++ [(pc.1, [])]
        pc.2.foldl
          (fun nd line =>
            let nd := if line ∈ nd.map Prod.fst then nd else nd ++ [(line, [])]
            nd.map (fun p => if p.1 = pc.1 then (p.1, osAdd p.2 line) else p))
          nd)
      [], q.2.Nodup := by
    have houter : ∀ (nd : List (String × List String)) (pc : String × List String),
        (∀ q ∈ nd, q.2.Nodup) →
        ∀ q ∈ (let nd := if pc.1 ∈ nd.map Prod.fst then nd else nd ++ [(pc.1, [])]
          pc.2.foldl
            (fun nd line =>
              let nd := if line ∈ nd.map Prod.fst then nd else nd ++ [(line, [])]
              nd.map (fun p => if p.1 = pc.1 then (p.1, osAdd p.2 line) else p))
            nd), q.2.Nodup := by
      intro nd pc hnd
      have hnd1 : ∀ q ∈ (if pc.1 ∈ nd.map Prod.fst then nd else nd ++ [(pc.1, [])]),
          q.2.Nodup := by
        intro q hq
        by_cases hc : pc.1 ∈ nd.map Prod.fst
        · rw [if_pos hc] at hq
          exact hnd q hq
        · rw [if_neg hc] at hq
          rcases List.mem_append.mp hq with hq | hq
          · exact hnd q hq
          · rw [List.mem_singleton.mp hq]
            exact List.nodup_nil
      refine foldl_preserve (fun (nd : List (String × List String)) => ∀ q ∈ nd, q.2.Nodup) _ ?_ pc.2 _ hnd1
      intro acc line hacc q hq
      obtain ⟨p, hp, he⟩ := List.mem_map.mp hq
      have hpnd : p.2.Nodup := by
        by_cases hline : line ∈ acc.map Prod.fst
        · rw [if_pos hline] at hp
          exact hacc p hp
        · rw [if_neg hline] at hp
          rcases List.mem_append.mp hp with hp | hp
          · exact hacc p hp
          · rw [List.mem_singleton.mp hp]
            exact List.nodup_nil
      by_cases hpk : p.1 = pc.1
      · rw [if_pos hpk] at he
        rw [← he]
        exact osAdd_nodup hpnd line
      · rw [if_neg hpk] at he
        rw [← he]
        exact hpnd
    exact foldl_preserve (fun (nd : List (String × List String)) => ∀ q ∈ nd, q.2.Nodup) _ houter pairs []
      (by intro q hq; cases hq)
  intro q hq
  rw [buildNodeDict] at hq
  obtain ⟨p, hp, he⟩ := List.mem_map.mp hq
  have hpnd : p.2.Nodup := hfold p hp
  by_cases hself : p.1 ∈ p.2
  · rw [if_pos hself] at he
    rw [← he]
    exact ⟨hpnd.erase _, fun habs => (List.Nodup.mem_erase_iff hpnd).mp habs |>.1 rfl⟩
  · rw [if_neg hself] at he
    rw [← he]
    exact ⟨hpnd, hself⟩

/-- Every entry of the built node collection either was in the
accumulator already or is the node built for some input pair. -/
theorem buildNodes_entries {pti : List (String × Nat)} {ext : List (String × List String)}
    {acc out : List (Nat × DependencyGraphNode)}
    (h : buildNodes pti ext acc = some out) :
    ∀ e ∈ out, e ∈ acc ∨ ∃ q ∈ ext, ∃ ids, alookup pti q.1 = some e.1 ∧
      depsToIds pti q.2 = some ids ∧ e.2 = ⟨e.1, odedup ids, []⟩ := by
  induction ext generalizing acc with
  | nil =>
    rw [buildNodes] at h
    cases h
    exact fun e he => Or.inl he
  | cons q t ih =>
    obtain ⟨qp, qds⟩ := q
    rw [buildNodes] at h
    cases hq : alookup pti qp with
    | none => rw [hq] at h; cases h
    | some nid =>
      rw [hq] at h
      cases hqds : depsToIds pti qds with
      | none => rw [hqds] at h; cases h
      | some ids =>
        rw [hqds] at h
        intro e he
        rcases ih h e he with hacc | ⟨r, hr, ids2, h1, h2, h3⟩
        · rcases mem_odInsert_cases hacc with hacc2 | hekv
          · exact Or.inl hacc2
          · refine Or.inr ⟨(qp, qds), List.mem_cons_self _ _, ids, ?_, hqds, ?_⟩
            · rw [hekv]; exact hq
            · rw [hekv]
        · exact Or.inr ⟨r, List.mem_cons_of_mem _ hr, ids2, h1, h2, h3⟩

/-- Entries after one dependents update: key, id and dependencies are
those of an entry of the input collection. -/
theorem addDependentsFor_entries {nodes r : List (Nat × DependencyGraphNode)} {nid : Nat}
    {ds : List Nat} (h : addDependentsFor nodes nid ds = some r) :
    ∀ e ∈ r, ∃ e0 ∈ nodes, e.1 = e0.1 ∧ e.2.id = e0.2.id ∧
      e.2.dependencies = e0.2.dependencies := by
  induction ds generalizing nodes with
  | nil =>
    rw [addDependentsFor] at h
    cases h
    exact fun e he => ⟨e, he, rfl, rfl, rfl⟩
  | cons d t ih =>
    rw [addDependentsFor] at h
    cases hl : alookup nodes d with
    | none => rw [hl] at h; cases h
    | some n =>
      rw [hl] at h
      intro e he
      obtain ⟨e1, he1, hk, hid, hdeps⟩ := ih h e he
      obtain ⟨e0, he0, hmap⟩ := List.mem_map.mp he1
      by_cases he0d : e0.1 = d
      · rw [if_pos he0d] at hmap
        subst hmap
        exact ⟨e0, he0, hk, hid, hdeps⟩
      · rw [if_neg he0d] at hmap
        subst hmap
        exact ⟨e0, he0, hk, hid, hdeps⟩

/-- Entries after the dependents pass: key, id and dependencies are those
of an entry of the freshly built collection. -/
theorem depPass_entries {cur r : List (Nat × DependencyGraphNode)}
    {items : List (Nat × List Nat)} (h : depPass cur items = some r) :
    ∀ e ∈ r, ∃ e0 ∈ cur, e.1 = e0.1 ∧ e.2.id = e0.2.id ∧
      e.2.dependencies = e0.2.dependencies := by
  induction items generalizing cur with
  | nil =>
    rw [depPass] at h
    cases h
    exact fun e he => ⟨e, he, rfl, rfl, rfl⟩
  | cons q t ih =>
    obtain ⟨nid, ds⟩ := q
    rw [depPass] at h
    cases ha : addDependentsFor cur nid ds with
    | none => rw [ha] at h; cases h
    | some cur2 =>
      rw [ha] at h
      intro e he
      obtain ⟨e1, he1, hk1, hid1, hdeps1⟩ := ih h e he
      obtain ⟨e0, he0, hk0, hid0, hdeps0⟩ := addDependentsFor_entries ha e1 he1
      exact ⟨e0, he0, hk1.trans hk0, hid1.trans hid0, hdeps1.trans hdeps0⟩

/-- Claim C5, amended: self-references are removed by the `node_dict`
preprocessing of `gen_dependency_graph_in` (lines 271-273), not by
`DependencyGraph.__init__` itself.  For every input pair list — including
pairs listing their own path — the graph constructed from the
preprocessed pairs satisfies `id ∉ dependencies` for every node, while
`__init__` alone preserves a pair's self-reference (see the
counterexample). -/
theorem c5_amended_pipeline_strips_self_references
    (pairs : List (String × List String)) (mapping : List (String × String))
    (G : DependencyGraph)
    (h : DependencyGraph.init mapping (buildNodeDict pairs) = some G) :
    ∀ e ∈ G.nodes_by_id, e.1 ∉ e.2.dependencies ∧ e.2.id ∉ e.2.dependencies := by
  rw [init_unfold] at h
  split at h
  · cases h
  rename_i nodes0 hb
  split at h
  · cases h
  rename_i nodes hdp
  injection h with h2
  subst h2
  intro e he
  obtain ⟨e0, he0, hk, hid, hdeps⟩ := depPass_entries hdp e he
  rcases buildNodes_entries hb e0 he0 with h0 | ⟨q, hq, ids, hal, hids, hnode⟩
  · cases h0
  have hid0 : e0.2.id = e0.1 := by rw [hnode]
  have hdeps0 : e0.2.dependencies = odedup ids := by rw [hnode]
  have hmain : e0.1 ∉ e0.2.dependencies := by
    rw [hdeps0]
    intro habs
    have hiids : e0.1 ∈ ids := (mem_odedup ids e0.1).mp habs
    obtain ⟨dd, hdd, hddl⟩ := depsToIds_mem_rev hids hiids
    have : dd = q.1 := alookup_path_to_id_inj hddl hal
    exact (buildNodeDict_no_self pairs q hq).2 (this ▸ hdd)
  constructor
  · rw [hk, hdeps]
    exact hmain
  · rw [hid, hdeps, hid0]
    exact hmain

/-- Witness for the amended C5 at a concrete input: the pair
`("a", ["a", "b"])` lists its own path; after preprocessing and
construction, node `a` (id 0, dependency list `[1]`) does not contain
itself. -/
theorem c5_amended_pipeline_strips_self_references_witness :
    ((0 : Nat), (⟨0, [1], []⟩ : DependencyGraphNode)).1 ∉
        ((0 : Nat), (⟨0, [1], []⟩ : DependencyGraphNode)).2.dependencies ∧
      ((0 : Nat), (⟨0, [1], []⟩ : DependencyGraphNode)).2.id ∉
        ((0 : Nat), (⟨0, [1], []⟩ : DependencyGraphNode)).2.dependencies :=
  c5_amended_pipeline_strips_self_references [("a", ["a", "b"])] [("a", "a"), ("b", "b")]
    ⟨[("a", "a"), ("b", "b")], [("a", 0), ("b", 1)], [(0, "a"), (1, "b")],
      [(0, ⟨0, [1], []⟩), (1, ⟨1, [], [0]⟩)]⟩
    (by rfl) ((0 : Nat), (⟨0, [1], []⟩ : DependencyGraphNode)) (by decide)

/-- Frame relation of a walk on behalf of `base`: only `base`'s entry
changes, and only by deleting dependency ids (a sublist remains). -/
def FrameLE (g2 g : List (Nat × DependencyGraphNode)) (base : Nat) : Prop :=
  g2.map Prod.fst = g.map Prod.fst ∧
  (∀ k, k ≠ base → alookup g2 k = alookup g k) ∧
  (alookup g base = none → alookup g2 base = none) ∧
  ∀ n, alookup g base = some n → ∃ ds, alookup g2 base = some ⟨n.id, ds, n.dependents⟩ ∧
    ds.Sublist n.dependencies

/-- Reflexivity of the frame relation. -/
theorem FrameLE.frefl {g : List (Nat × DependencyGraphNode)} {base : Nat} : FrameLE g g base :=
  ⟨rfl, fun _ _ => rfl, fun h => h,
    fun n h => ⟨n.dependencies, by rw [h], List.Sublist.refl _⟩⟩

/-- Transitivity of the frame relation. -/
theorem FrameLE.ftrans {g3 g2 g : List (Nat × DependencyGraphNode)} {base : Nat}
    (h32 : FrameLE g3 g2 base) (h21 : FrameLE g2 g base) : FrameLE g3 g base := by
  obtain ⟨hk32, hne32, hnone32, hsome32⟩ := h32
  obtain ⟨hk21, hne21, hnone21, hsome21⟩ := h21
  refine ⟨hk32.trans hk21, fun k hk => (hne32 k hk).trans (hne21 k hk),
    fun h => hnone32 (hnone21 h), fun n h => ?_⟩
  obtain ⟨ds, h2, hds⟩ := hsome21 n h
  obtain ⟨ds3, h3, hds3⟩ := hsome32 _ h2
  exact ⟨ds3, h3, hds3.trans hds⟩

/-- Erasing one id from the base entry is a frame step. -/
theorem FrameLE.updDeps_erase (g : List (Nat × DependencyGraphNode)) (base d : Nat) :
    FrameLE (updDeps g base (fun ds => ds.erase d)) g base := by
  refine ⟨updDeps_keys g base _, fun k hk => alookup_updDeps_ne _ hk, ?_, ?_⟩
  · intro h
    rw [alookup_updDeps_self, h]
    rfl
  · intro n h
    rw [alookup_updDeps_self, h]
    exact ⟨n.dependencies.erase d, rfl, List.erase_sublist d n.dependencies⟩

/-- The recursive walk only shrinks the base entry's dependency list and
touches nothing else. -/
theorem remove_common_dependencies_frame :
    ∀ (fuel : Nat) (g : List (Nat × DependencyGraphNode)) (base nid : Nat),
      FrameLE (remove_common_dependencies fuel g base nid) g base := by
  intro fuel
  induction fuel with
  | zero => intro g base nid; exact FrameLE.frefl
  | succ fuel ih =>
    intro g base nid
    rw [remove_common_dependencies]
    refine foldl_preserve (fun g2 => FrameLE g2 g base) _ ?_ (depsD g nid) g FrameLE.frefl
    intro acc d hacc
    exact ((ih _ base d).ftrans (FrameLE.updDeps_erase acc base d)).ftrans hacc

/-- The per-node loop body only shrinks that node's dependency list. -/
theorem reduceNode_frame (fuel : Nat) (g : List (Nat × DependencyGraphNode)) (nid : Nat) :
    FrameLE (reduceNode fuel g nid) g nid := by
  rw [reduceNode]
  refine foldl_preserve (fun g2 => FrameLE g2 g nid) _ ?_ (depsD g nid) g FrameLE.frefl
  intro acc d hacc
  exact (remove_common_dependencies_frame fuel acc nid d).ftrans hacc

/-- Global frame relation of the whole reduction: every entry keeps its
key, id and dependents, and its dependency list becomes a sublist. -/
def GFrame (g2 g : List (Nat × DependencyGraphNode)) : Prop :=
  g2.map Prod.fst = g.map Prod.fst ∧
  (∀ k, alookup g k = none → alookup g2 k = none) ∧
  ∀ k n, alookup g k = some n → ∃ ds, alookup g2 k = some ⟨n.id, ds, n.dependents⟩ ∧
    ds.Sublist n.dependencies

/-- Reflexivity of the global frame relation. -/
theorem GFrame.grefl {g : List (Nat × DependencyGraphNode)} : GFrame g g :=
  ⟨rfl, fun _ h => h, fun _ n h => ⟨n.dependencies, by rw [h], List.Sublist.refl _⟩⟩

/-- Transitivity of the global frame relation. -/
theorem GFrame.gtrans {g3 g2 g : List (Nat × DependencyGraphNode)}
    (h32 : GFrame g3 g2) (h21 : GFrame g2 g) : GFrame g3 g := by
  obtain ⟨hk32, hnone32, hsome32⟩ := h32
  obtain ⟨hk21, hnone21, hsome21⟩ := h21
  refine ⟨hk32.trans hk21, fun k h => hnone32 k (hnone21 k h), fun k n h => ?_⟩
  obtain ⟨ds, h2, hds⟩ := hsome21 k n h
  obtain ⟨ds3, h3, hds3⟩ := hsome32 k _ h2
  exact ⟨ds3, h3, hds3.trans hds⟩

/-- A `FrameLE` step is in particular a `GFrame` step. -/
theorem GFrame.of_frameLE {g2 g : List (Nat × DependencyGraphNode)} {base : Nat}
    (h : FrameLE g2 g base) : GFrame g2 g := by
  obtain ⟨hk, hne, hnone, hsome⟩ := h
  refine ⟨hk, ?_, ?_⟩
  · intro k hk2
    by_cases hkb : k = base
    · subst hkb
      exact hnone hk2
    · rw [hne k hkb]
      exact hk2
  · intro k n hk2
    by_cases hkb : k = base
    · subst hkb
      exact hsome n hk2
    · rw [hne k hkb, hk2]
      exact ⟨n.dependencies, by rfl, List.Sublist.refl _⟩

/-- The whole reduction relates to the original collection by the global
frame relation. -/
theorem removeTransitiveNodes_gframe (g : List (Nat × DependencyGraphNode)) :
    GFrame (removeTransitiveNodes g) g := by
  rw [removeTransitiveNodes]
  refine foldl_preserve (fun g2 => GFrame g2 g) _ ?_ (g.map Prod.fst) g GFrame.grefl
  intro acc k hacc
  exact (GFrame.of_frameLE (reduceNode_frame (g.length + 1) acc k)).gtrans hacc

/-- Claim C4: on every acyclic dependency graph,
`remove_transitive_dependencies` only removes elements from existing
dependency lists: it adds no node and no edge, and it leaves the node
collection's keys and order, the path-to-id and id-to-path mappings, the
display-name mapping, every node's id, and every node's dependents set
exactly as they were; each node's dependency list after the call is a
sublist of the one before. -/
theorem c4_reduction_frame (G : DependencyGraph) (_hac : Acyclic G.nodes_by_id) :
    G.remove_transitive_dependencies.path_to_name_mapping = G.path_to_name_mapping ∧
    G.remove_transitive_dependencies.path_to_id = G.path_to_id ∧
    G.remove_transitive_dependencies.id_to_path = G.id_to_path ∧
    G.remove_transitive_dependencies.nodes_by_id.map Prod.fst
      = G.nodes_by_id.map Prod.fst ∧
    (∀ k, alookup G.nodes_by_id k = none →
      alookup G.remove_transitive_dependencies.nodes_by_id k = none) ∧
    ∀ k n, alookup G.nodes_by_id k = some n →
      ∃ ds, alookup G.remove_transitive_dependencies.nodes_by_id k
          = some ⟨n.id, ds, n.dependents⟩ ∧
        ds.Sublist n.dependencies := by
  obtain ⟨hk, hnone, hsome⟩ := removeTransitiveNodes_gframe G.nodes_by_id
  exact ⟨rfl, rfl, rfl, hk, hnone, hsome⟩

/-- Witness for C4 at a concrete acyclic graph (the diamond of
`exampleDiamond`, ranked by `fun i => 2 - i`). -/
theorem c4_reduction_frame_witness :
    (DependencyGraph.mk [("a", "a"), ("b", "b"), ("c", "c")]
        [("a", 0), ("b", 1), ("c", 2)] [(0, "a"), (1, "b"), (2, "c")]
        exampleDiamond).remove_transitive_dependencies.path_to_id
      = [("a", 0), ("b", 1), ("c", 2)] ∧
    (DependencyGraph.mk [("a", "a"), ("b", "b"), ("c", "c")]
        [("a", 0), ("b", 1), ("c", 2)] [(0, "a"), (1, "b"), (2, "c")]
        exampleDiamond).remove_transitive_dependencies.nodes_by_id.map Prod.fst
      = exampleDiamond.map Prod.fst := by
  have h := c4_reduction_frame
    (DependencyGraph.mk [("a", "a"), ("b", "b"), ("c", "c")]
      [("a", 0), ("b", 1), ("c", 2)] [(0, "a"), (1, "b"), (2, "c")] exampleDiamond)
    ⟨fun i => 2 - i, by unfold RankOk; decide⟩
  exact ⟨h.2.1, h.2.2.2.1⟩

/-- The instrumented per-node loop computes the same graph as the plain
one, and its walked-roots log is exactly the dependency snapshot taken
when the node's processing starts. -/
theorem reduceNodeWalked_spec (fuel : Nat) (g : List (Nat × DependencyGraphNode)) (nid : Nat) :
    (reduceNodeWalked fuel g nid).1 = reduceNode fuel g nid ∧
    (reduceNodeWalked fuel g nid).2 = depsD g nid := by
  have general : ∀ (l : List Nat) (g0 : List (Nat × DependencyGraphNode)) (log : List Nat),
      l.foldl (fun st d => (remove_common_dependencies fuel st.1 nid d, st.2 ++ [d]))
        (g0, log)
      = (l.foldl (fun g2 d => remove_common_dependencies fuel g2 nid d) g0, log ++ l) := by
    intro l
    induction l with
    | nil => intro g0 log; simp
    | cons d t ih =>
      intro g0 log
      rw [List.foldl_cons, List.foldl_cons, ih]
      simp
  rw [reduceNodeWalked, reduceNode, general]
  exact ⟨rfl, by simp⟩

/-- Claim C2, amended: during `remove_transitive_dependencies`, the
direct dependencies whose closures are walked on a node's behalf are
exactly the entries of the snapshot `list(node.dependencies)` taken when
that node's processing starts — not the live, mutating dependency set —
so a direct dependency removed by an earlier walk still has its closure
walked (see the counterexample); the instrumented run computes the same
final graph as the plain one. -/
theorem c2_amended_walked_roots_are_snapshots (g : List (Nat × DependencyGraphNode)) :
    (removeTransitiveWalked g).1 = removeTransitiveNodes g ∧
    (removeTransitiveWalked g).2 = snapshotScan (g.length + 1) (g.map Prod.fst) g := by
  have general : ∀ (ks : List Nat) (h : List (Nat × DependencyGraphNode))
      (log : List (Nat × List Nat)),
      ks.foldl (fun st k =>
          let r := reduceNodeWalked (g.length + 1) st.1 k
          (r.1, st.2 ++ [(k, r.2)])) (h, log)
      = (ks.foldl (fun g2 k => reduceNode (g.length + 1) g2 k) h,
          log ++ snapshotScan (g.length + 1) ks h) := by
    intro ks
    induction ks with
    | nil => intro h log; simp [snapshotScan]
    | cons k t ih =>
      intro h log
      rw [List.foldl_cons, List.foldl_cons]
      obtain ⟨h1, h2⟩ := reduceNodeWalked_spec (g.length + 1) h k
      simp only [h1, h2, ih, snapshotScan]
      simp
  rw [removeTransitiveWalked, removeTransitiveNodes, general]
  exact ⟨rfl, by simp⟩

/-- Fold-preservation with membership information. -/
theorem foldl_preserve_mem {α β : Type} (P : β → Prop) (step : β → α → β) :
    ∀ (l : List α) (b : β), P b → (∀ acc x, x ∈ l → P acc → P (step acc x)) →
      P (l.foldl step b) := by
  intro l
  induction l with
  | nil => exact fun b h _ => h
  | cons x t ih =>
    intro b h hstep
    exact ih _ (hstep b x (List.mem_cons_self _ _) h)
      (fun acc y hy => hstep acc y (List.mem_cons_of_mem _ hy))

/-- The identity update changes nothing. -/
theorem updDeps_id (g : List (Nat × DependencyGraphNode)) (k : Nat) :
    updDeps g k (fun ds => ds) = g :=
  updDeps_nochange (fun _ _ _ => rfl)

/-- Dependency lists agree wherever the lookups agree. -/
theorem depsD_congr {g g0 : List (Nat × DependencyGraphNode)} {base nid : Nat}
    (hagree : ∀ j, j ≠ base → alookup g j = alookup g0 j) (hnid : nid ≠ base) :
    depsD g nid = depsD g0 nid := by
  rw [depsD, depsD, hagree nid hnid]

/-- A direct dependency is in the walk, and its sub-walk is contained in
the walk. -/
theorem walkIds_of_dep {g : List (Nat × DependencyGraphNode)} {fuel nid d : Nat}
    (hd : d ∈ depsD g nid) :
    d ∈ walkIds g (fuel + 1) nid ∧ walkIds g fuel d ⊆ walkIds g (fuel + 1) nid := by
  constructor
  · simp only [walkIds, List.mem_flatMap]
    exact ⟨d, hd, List.mem_cons_self _ _⟩
  · intro x hx
    simp only [walkIds, List.mem_flatMap]
    exact ⟨d, hd, List.mem_cons_of_mem _ hx⟩

/-- Rank order on dependency lists, phrased through `depsD`. -/
def RankOkD (g : List (Nat × DependencyGraphNode)) (rank : Nat → Nat) : Prop :=
  ∀ k, ∀ d ∈ depsD g k, rank d < rank k

/-- An entry-level ranking is a `depsD`-level ranking. -/
theorem RankOkD.of_rankOk {g : List (Nat × DependencyGraphNode)} {rank : Nat → Nat}
    (h : RankOk g rank) : RankOkD g rank := by
  intro k d hd
  rw [depsD] at hd
  cases hl : alookup g k with
  | none => rw [hl] at hd; cases hd
  | some n =>
    rw [hl] at hd
    exact h (k, n) (alookup_mem hl) d hd

/-- Every id in a walk ranks strictly below the walk's origin. -/
theorem walk_rank {g : List (Nat × DependencyGraphNode)} {rank : Nat → Nat}
    (h : RankOkD g rank) :
    ∀ (fuel : Nat) (nid x : Nat), x ∈ walkIds g fuel nid → rank x < rank nid := by
  intro fuel
  induction fuel with
  | zero => intro nid x hx; cases hx
  | succ fuel ih =>
    intro nid x hx
    simp only [walkIds, List.mem_flatMap] at hx
    obtain ⟨d, hd, hx⟩ := hx
    rcases List.mem_cons.mp hx with hxd | hxw
    · exact hxd ▸ h nid d hd
    · exact (ih d x hxw).trans (h nid d hd)

/-- Walks shrink when every dependency list shrinks. -/
theorem walkIds_mono {g2 g : List (Nat × DependencyGraphNode)}
    (h : ∀ k, depsD g2 k ⊆ depsD g k) :
    ∀ (fuel nid : Nat), walkIds g2 fuel nid ⊆ walkIds g fuel nid := by
  intro fuel
  induction fuel with
  | zero => intro nid x hx; cases hx
  | succ fuel ih =>
    intro nid x hx
    simp only [walkIds, List.mem_flatMap] at hx ⊢
    obtain ⟨d, hd, hx⟩ := hx
    refine ⟨d, h nid hd, ?_⟩
    rcases List.mem_cons.mp hx with hxd | hxw
    · exact hxd ▸ List.mem_cons_self _ _
    · exact List.mem_cons_of_mem _ (ih d hxw)

/-- Specification of `remove_common_dependencies`: when the walk never
touches the base node (in particular on ranked graphs), the call erases
from the base entry exactly the ids of the walk, in walk order, and
changes nothing else.  `g0` is the ambient graph the walk reads; `g` may
differ from it at the base entry only. -/
theorem remove_common_spec :
    ∀ (fuel : Nat) (g0 g : List (Nat × DependencyGraphNode)) (base nid : Nat),
      (∀ j, j ≠ base → alookup g j = alookup g0 j) →
      nid ≠ base →
      (∀ x ∈ walkIds g0 fuel nid, x ≠ base) →
      remove_common_dependencies fuel g base nid
        = updDeps g base
            (fun ds => (walkIds g0 fuel nid).foldl (fun ds x => ds.erase x) ds) := by
  intro fuel
  induction fuel with
  | zero =>
    intro g0 g base nid _ _ _
    rw [remove_common_dependencies]
    simp only [walkIds, List.foldl_nil]
    exact (updDeps_id g base).symm
  | succ fuel ih =>
    intro g0 g base nid hagree hnid hav
    rw [remove_common_dependencies, depsD_congr hagree hnid]
    have general : ∀ (l : List Nat), (∀ d ∈ l, d ∈ depsD g0 nid) →
        ∀ (g2 : List (Nat × DependencyGraphNode)),
        (∀ j, j ≠ base → alookup g2 j = alookup g0 j) →
        l.foldl (fun g2 d =>
            remove_common_dependencies fuel (updDeps g2 base (fun ds => ds.erase d)) base d) g2
          = updDeps g2 base
              (fun ds => (l.flatMap (fun d => d :: walkIds g0 fuel d)).foldl
                (fun ds x => ds.erase x) ds) := by
      intro l
      induction l with
      | nil =>
        intro _ g2 _
        simp only [List.foldl_nil, List.flatMap_nil]
        exact (updDeps_id g2 base).symm
      | cons d t ihl =>
        intro hmem g2 hag2
        have hd0 : d ∈ depsD g0 nid := hmem d (List.mem_cons_self _ _)
        have hdw := @walkIds_of_dep g0 fuel nid d hd0
        have hdne : d ≠ base := hav d hdw.1
        have havd : ∀ x ∈ walkIds g0 fuel d, x ≠ base := fun x hx => hav x (hdw.2 hx)
        have hag3 : ∀ j, j ≠ base →
            alookup (updDeps g2 base (fun ds => ds.erase d)) j = alookup g0 j :=
          fun j hj => (alookup_updDeps_ne _ hj).trans (hag2 j hj)
        rw [List.foldl_cons, ih g0 _ base d hag3 hdne havd, updDeps_updDeps]
        rw [ihl (fun e he => hmem e (List.mem_cons_of_mem _ he)) _
          (fun j hj => (alookup_updDeps_ne _ hj).trans (hag2 j hj)), updDeps_updDeps]
        congr 1
        funext ds
        rw [List.flatMap_cons, List.foldl_append, List.foldl_cons]
    rw [general (depsD g0 nid) (fun d hd => hd) g hagree]
    congr 1

/-- Dependency lists through a frame step: unchanged off the base, a
sublist at the base. -/
theorem depsD_of_frame {g2 g : List (Nat × DependencyGraphNode)} {base : Nat}
    (h : FrameLE g2 g base) :
    (∀ j, j ≠ base → depsD g2 j = depsD g j) ∧
      (depsD g2 base).Sublist (depsD g base) := by
  obtain ⟨hk, hne, hnone, hsome⟩ := h
  constructor
  · intro j hj
    rw [depsD, depsD, hne j hj]
  · cases hl : alookup g base with
    | none =>
      rw [depsD, depsD, hl, hnone hl]
    | some n =>
      obtain ⟨ds, h2, hds⟩ := hsome n hl
      rw [depsD, depsD, hl, h2]
      exact hds

/-- Specification of the per-node loop body on a ranked graph: it erases
from the node's dependency list exactly the ids walked from each snapshot
entry, and changes nothing else. -/
theorem reduceNode_spec (fuel : Nat) (g : List (Nat × DependencyGraphNode)) (u : Nat)
    (rank : Nat → Nat) (hrank : RankOkD g rank) :
    reduceNode fuel g u
      = updDeps g u
          (fun ds => ((depsD g u).flatMap (fun d => walkIds g fuel d)).foldl
            (fun ds x => ds.erase x) ds) := by
  rw [reduceNode]
  have general : ∀ (l : List Nat), (∀ d ∈ l, d ∈ depsD g u) →
      ∀ (g2 : List (Nat × DependencyGraphNode)),
      (∀ j, j ≠ u → alookup g2 j = alookup g j) →
      l.foldl (fun g2 d => remove_common_dependencies fuel g2 u d) g2
        = updDeps g2 u
            (fun ds => (l.flatMap (fun d => walkIds g fuel d)).foldl
              (fun ds x => ds.erase x) ds) := by
    intro l
    induction l with
    | nil =>
      intro _ g2 _
      simp only [List.foldl_nil, List.flatMap_nil]
      exact (updDeps_id g2 u).symm
    | cons d t ihl =>
      intro hmem g2 hag2
      have hd0 : d ∈ depsD g u := hmem d (List.mem_cons_self _ _)
      have hdu : d ≠ u := by
        intro hdu
        exact Nat.lt_irrefl _ (hdu ▸ hrank u d hd0)
      have havd : ∀ x ∈ walkIds g fuel d, x ≠ u := by
        intro x hx hxu
        exact Nat.lt_irrefl _ (Nat.lt_trans (hxu ▸ walk_rank hrank fuel d x hx) (hrank u d hd0))
      rw [List.foldl_cons, remove_common_spec fuel g g2 u d hag2 hdu havd]
      rw [ihl (fun e he => hmem e (List.mem_cons_of_mem _ he)) _
        (fun j hj => (alookup_updDeps_ne _ hj).trans (hag2 j hj)), updDeps_updDeps]
      congr 1
      funext ds
      rw [List.flatMap_cons, List.foldl_append]
  rw [general (depsD g u) (fun d hd => hd) g (fun _ _ => rfl)]

/-- Sequentially erasing the elements of a list from a duplicate-free
list is filtering them out. -/
theorem foldl_erase_filter :
    ∀ (L ds : List Nat), ds.Nodup →
      L.foldl (fun ds x => ds.erase x) ds = ds.filter (fun x => decide (x ∉ L)) := by
  intro L
  induction L with
  | nil =>
    intro ds _
    simp
  | cons a L ih =>
    intro ds h
    rw [List.foldl_cons, ih _ (h.erase a), List.Nodup.erase_eq_filter h a,
      List.filter_filter]
    apply List.filter_congr
    intro x _
    by_cases hxa : x = a <;> by_cases hxL : x ∈ L <;>
      simp [hxa, hxL, List.mem_cons]

/-- The dependency list of a node after its own processing, on a ranked
graph with duplicate-free dependencies: the snapshot filtered by
non-membership in any snapshot entry's walk. -/
theorem depsD_reduceNode (fuel : Nat) (g : List (Nat × DependencyGraphNode)) (u : Nat)
    (rank : Nat → Nat) (hrank : RankOkD g rank) (hnd : (depsD g u).Nodup) :
    depsD (reduceNode fuel g u) u
      = (depsD g u).filter (fun x =>
          decide (x ∉ (depsD g u).flatMap (fun d => walkIds g fuel d))) := by
  rw [reduceNode_spec fuel g u rank hrank, depsD, alookup_updDeps_self]
  cases hl : alookup g u with
  | none =>
    have : depsD g u = [] := by rw [depsD, hl]
    rw [this]
    rfl
  | some n =>
    have hdeps : depsD g u = n.dependencies := by rw [depsD, hl]
    rw [hdeps] at hnd ⊢
    simp only [Option.map_some']
    exact foldl_erase_filter _ _ hnd

/-- Dependency lists only shrink under the per-node loop body. -/
theorem reduceNode_depsD_subset (fuel : Nat) (g : List (Nat × DependencyGraphNode))
    (k j : Nat) : depsD (reduceNode fuel g k) j ⊆ depsD g j := by
  obtain ⟨hne, hsub⟩ := depsD_of_frame (reduceNode_frame fuel g k)
  by_cases hj : j = k
  · subst hj
    exact hsub.subset
  · rw [hne j hj]
    exact fun x hx => hx

/-- Dependency lists of other nodes are untouched by the per-node loop
body. -/
theorem reduceNode_depsD_ne (fuel : Nat) (g : List (Nat × DependencyGraphNode))
    {k j : Nat} (hj : j ≠ k) : depsD (reduceNode fuel g k) j = depsD g j :=
  (depsD_of_frame (reduceNode_frame fuel g k)).1 j hj

/-- Rankings survive shrinking of every dependency list. -/
theorem RankOkD.mono {g2 g : List (Nat × DependencyGraphNode)} {rank : Nat → Nat}
    (h : RankOkD g rank) (hsub : ∀ j, depsD g2 j ⊆ depsD g j) : RankOkD g2 rank :=
  fun k d hd => h k d (hsub k hd)

/-- Main induction along the outer processing order: after folding the
per-node loop over a duplicate-free key list on a ranked graph, every
dependency list has shrunk, rank order and duplicate-freeness persist,
unprocessed nodes are untouched, and each processed node's final list is
its snapshot filtered by the walks taken in the state in which it was
processed. -/
theorem runOn_spec (F : Nat) (rank : Nat → Nat) :
    ∀ (ks : List Nat) (h : List (Nat × DependencyGraphNode)),
      ks.Nodup → RankOkD h rank → (∀ k, (depsD h k).Nodup) →
      (∀ j, depsD (ks.foldl (fun g2 k => reduceNode F g2 k) h) j ⊆ depsD h j) ∧
      RankOkD (ks.foldl (fun g2 k => reduceNode F g2 k) h) rank ∧
      (∀ k, (depsD (ks.foldl (fun g2 k => reduceNode F g2 k) h) k).Nodup) ∧
      (∀ j, j ∉ ks → depsD (ks.foldl (fun g2 k => reduceNode F g2 k) h) j = depsD h j) ∧
      ∀ u ∈ ks, ∃ hu : List (Nat × DependencyGraphNode),
        (∀ j, depsD (ks.foldl (fun g2 k => reduceNode F g2 k) h) j ⊆ depsD hu j) ∧
        depsD (ks.foldl (fun g2 k => reduceNode F g2 k) h) u
          = (depsD hu u).filter (fun x =>
              decide (x ∉ (depsD hu u).flatMap (fun d => walkIds hu F d))) := by
  intro ks
  induction ks with
  | nil =>
    intro h _ hrank hnodup
    exact ⟨fun j x hx => hx, hrank, hnodup, fun j _ => rfl,
      fun u hu => absurd hu (List.not_mem_nil u)⟩
  | cons k t ih =>
    intro h hnd hrank hnodup
    have hkt : k ∉ t := (List.nodup_cons.mp hnd).1
    have hndt : t.Nodup := (List.nodup_cons.mp hnd).2
    have hsub1 : ∀ j, depsD (reduceNode F h k) j ⊆ depsD h j :=
      fun j => reduceNode_depsD_subset F h k j
    have hrank1 : RankOkD (reduceNode F h k) rank := hrank.mono hsub1
    have hnodup1 : ∀ j, (depsD (reduceNode F h k) j).Nodup := by
      intro j
      by_cases hj : j = k
      · subst hj
        exact ((depsD_of_frame (reduceNode_frame F h j)).2.nodup (hnodup j))
      · rw [reduceNode_depsD_ne F h hj]
        exact hnodup j
    obtain ⟨S, R, N, U, P⟩ := ih (reduceNode F h k) hndt hrank1 hnodup1
    rw [List.foldl_cons]
    refine ⟨fun j => (S j).trans (hsub1 j), R, N, ?_, ?_⟩
    · intro j hj
      have hjk : j ≠ k := fun hh => hj (hh ▸ List.mem_cons_self _ _)
      have hjt : j ∉ t := fun hh => hj (List.mem_cons_of_mem _ hh)
      rw [U j hjt, reduceNode_depsD_ne F h hjk]
    · intro u hu
      rcases List.mem_cons.mp hu with huk | hut
      · subst huk
        refine ⟨h, fun j => (S j).trans (hsub1 j), ?_⟩
        rw [U u hkt]
        exact depsD_reduceNode F h u rank hrank (hnodup u)
      · exact P u hut

/-- A pair of a duplicate-free-keyed collection is what its lookup
returns. -/
theorem alookup_of_mem_nodup {g : List (Nat × DependencyGraphNode)} {k : Nat}
    {v : DependencyGraphNode} (hnd : (g.map Prod.fst).Nodup) (h : (k, v) ∈ g) :
    alookup g k = some v := by
  induction g with
  | nil => cases h
  | cons p t ih =>
    obtain ⟨a, n⟩ := p
    rw [List.map_cons] at hnd
    rcases List.mem_cons.mp h with hh | hh
    · injection hh with h1 h2
      subst h1
      subst h2
      simp [alookup]
    · have hak : a ≠ k := by
        intro haa
        apply (List.nodup_cons.mp hnd).1
        rw [haa]
        exact List.mem_map.mpr ⟨(k, v), hh, rfl⟩
      rw [alookup, if_neg hak]
      exact ih (List.nodup_cons.mp hnd).2 hh

/-- After one full reduction of a well-formed ranked graph, no surviving
dependency is reachable through the walk of any surviving direct
dependency: the graph is stable. -/
theorem removeTransitive_post_stable (g : List (Nat × DependencyGraphNode))
    (rank : Nat → Nat) (hkeys : (g.map Prod.fst).Nodup) (hrank : RankOkD g rank)
    (hnodup : ∀ k, (depsD g k).Nodup) :
    ∀ u, ∀ d ∈ depsD (removeTransitiveNodes g) u,
      ∀ x ∈ walkIds (removeTransitiveNodes g) (g.length + 1) d,
        x ∉ depsD (removeTransitiveNodes g) u := by
  obtain ⟨S, R, N, U, P⟩ := runOn_spec (g.length + 1) rank (g.map Prod.fst) g hkeys hrank hnodup
  rw [removeTransitiveNodes]
  intro u d hd x hx hxin
  by_cases hu : u ∈ g.map Prod.fst
  · obtain ⟨hu', hsubu, hform⟩ := P u hu
    rw [hform] at hd hxin
    have hdmem := List.mem_filter.mp hd
    have hxmem := List.mem_filter.mp hxin
    have hxpred := of_decide_eq_true hxmem.2
    apply hxpred
    rw [List.mem_flatMap]
    refine ⟨d, hdmem.1, ?_⟩
    exact walkIds_mono hsubu (g.length + 1) d hx
  · rw [U u hu] at hd
    have : alookup g u = none := (alookup_eq_none_iff g u).mpr hu
    rw [depsD, this] at hd
    cases hd

/-- On a stable graph with unique ids, `remove_transitive_dependencies`
does nothing: every erase is an erase of an absent id. -/
theorem removeTransitiveNodes_of_stable (g : List (Nat × DependencyGraphNode))
    (hkeys : (g.map Prod.fst).Nodup)
    (hstable : ∀ u, ∀ d ∈ depsD g u, ∀ x ∈ walkIds g (g.length + 1) d,
      x ∉ depsD g u) :
    removeTransitiveNodes g = g := by
  have remnull : ∀ (fuel base nid : Nat),
      (∀ x ∈ walkIds g fuel nid, x ∉ depsD g base) →
      remove_common_dependencies fuel g base nid = g := by
    intro fuel
    induction fuel with
    | zero => intro base nid _; rw [remove_common_dependencies]
    | succ fuel ih =>
      intro base nid hav
      rw [remove_common_dependencies]
      refine foldl_preserve_mem (fun g2 => g2 = g) _ (depsD g nid) g rfl ?_
      intro acc d hd hacc
      rw [hacc]
      have hdw := @walkIds_of_dep g fuel nid d hd
      have hupd : updDeps g base (fun ds => ds.erase d) = g := by
        apply updDeps_nochange
        intro p hp hpb
        have hpl : alookup g base = some p.2 := by
          have : (base, p.2) ∈ g := by
            have hpe : p = (base, p.2) := by
              cases p
              simp_all
            exact hpe ▸ hp
          exact alookup_of_mem_nodup hkeys this
        have hdeps : depsD g base = p.2.dependencies := by rw [depsD, hpl]
        have hdnot : d ∉ p.2.dependencies := by
          rw [← hdeps]
          exact hav d hdw.1
        exact List.erase_of_not_mem hdnot
      rw [hupd]
      exact ih base d (fun x hx => hav x (hdw.2 hx))
  have rednull : ∀ nid, reduceNode (g.length + 1) g nid = g := by
    intro nid
    rw [reduceNode]
    refine foldl_preserve_mem (fun g2 => g2 = g) _ (depsD g nid) g rfl ?_
    intro acc d hd hacc
    rw [hacc]
    exact remnull (g.length + 1) nid d (hstable nid d hd)
  rw [removeTransitiveNodes]
  refine foldl_preserve (fun g2 => g2 = g) _ ?_ (g.map Prod.fst) g rfl
  intro acc k hacc
  rw [hacc]
  exact rednull k

/-- Claim C3: `remove_transitive_dependencies` is idempotent on every
well-formed acyclic dependency graph: running it a second time
immediately after a first run removes nothing further — the graph state
after two consecutive runs equals the state after one run. -/
theorem c3_reduction_idempotent (G : DependencyGraph) (hwf : WFNodes G.nodes_by_id)
    (hac : Acyclic G.nodes_by_id) :
    G.remove_transitive_dependencies.remove_transitive_dependencies
      = G.remove_transitive_dependencies := by
  obtain ⟨rank, hrank⟩ := hac
  have hrd : RankOkD G.nodes_by_id rank := RankOkD.of_rankOk hrank
  have hknd : (G.nodes_by_id.map Prod.fst).Nodup := hwf.1
  have hdnd : ∀ k, (depsD G.nodes_by_id k).Nodup := by
    intro k
    rw [depsD]
    cases hl : alookup G.nodes_by_id k with
    | none => exact List.nodup_nil
    | some n => exact hwf.2 (k, n) (alookup_mem hl)
  have hframe := removeTransitiveNodes_gframe G.nodes_by_id
  have hkeys1 : (removeTransitiveNodes G.nodes_by_id).map Prod.fst
      = G.nodes_by_id.map Prod.fst := hframe.1
  have hlen1 : (removeTransitiveNodes G.nodes_by_id).length = G.nodes_by_id.length := by
    have hc := congrArg List.length hkeys1
    simpa using hc
  have hknd1 : ((removeTransitiveNodes G.nodes_by_id).map Prod.fst).Nodup := by
    rw [hkeys1]
    exact hknd
  have hstable := removeTransitive_post_stable G.nodes_by_id rank hknd hrd hdnd
  have hstable1 : ∀ u, ∀ d ∈ depsD (removeTransitiveNodes G.nodes_by_id) u,
      ∀ x ∈ walkIds (removeTransitiveNodes G.nodes_by_id)
        ((removeTransitiveNodes G.nodes_by_id).length + 1) d,
      x ∉ depsD (removeTransitiveNodes G.nodes_by_id) u := by
    rw [hlen1]
    exact hstable
  have hid := removeTransitiveNodes_of_stable (removeTransitiveNodes G.nodes_by_id)
    hknd1 hstable1
  have e1 : G.remove_transitive_dependencies.remove_transitive_dependencies
      = ⟨G.path_to_name_mapping, G.path_to_id, G.id_to_path,
          removeTransitiveNodes (removeTransitiveNodes G.nodes_by_id)⟩ := rfl
  have e2 : G.remove_transitive_dependencies
      = ⟨G.path_to_name_mapping, G.path_to_id, G.id_to_path,
          removeTransitiveNodes G.nodes_by_id⟩ := rfl
  rw [e1, e2, hid]

/-- Witness for C3 at a concrete well-formed acyclic graph (the diamond
`exampleDiamond`). -/
theorem c3_reduction_idempotent_witness :
    (DependencyGraph.mk [("a", "a"), ("b", "b"), ("c", "c")]
        [("a", 0), ("b", 1), ("c", 2)] [(0, "a"), (1, "b"), (2, "c")]
        exampleDiamond).remove_transitive_dependencies.remove_transitive_dependencies
      = (DependencyGraph.mk [("a", "a"), ("b", "b"), ("c", "c")]
          [("a", 0), ("b", 1), ("c", 2)] [(0, "a"), (1, "b"), (2, "c")]
          exampleDiamond).remove_transitive_dependencies :=
  c3_reduction_idempotent
    (DependencyGraph.mk [("a", "a"), ("b", "b"), ("c", "c")]
      [("a", 0), ("b", 1), ("c", 2)] [(0, "a"), (1, "b"), (2, "c")] exampleDiamond)
    (by unfold WFNodes; decide) ⟨fun i => 2 - i, by unfold RankOk; decide⟩

/-- Membership after an `osAdd`. -/
theorem mem_osAdd {α : Type} [DecidableEq α] (l : List α) (y x : α) :
    x ∈ osAdd l y ↔ x ∈ l ∨ x = y := by
  rw [osAdd]
  by_cases hy : y ∈ l
  · rw [if_pos hy]
    constructor
    · exact Or.inl
    · rintro (h | h)
      · exact h
      · exact h ▸ hy
  · rw [if_neg hy]
    simp

/-- Deduplication of an already duplicate-free list is the identity. -/
theorem odedup_eq_self {α : Type} [DecidableEq α] {l : List α} (h : l.Nodup) :
    odedup l = l := by
  have general : ∀ (l acc : List α), l.Nodup → (∀ x ∈ l, x ∉ acc) →
      l.foldl (fun acc x => if x ∈ acc then acc else acc ++ [x]) acc = acc ++ l := by
    intro l
    induction l with
    | nil => intro acc _ _; simp
    | cons y t ih =>
      intro acc hnd hdis
      rw [List.foldl_cons, if_neg (hdis y (List.mem_cons_self _ _))]
      rw [ih (acc ++ [y]) (List.nodup_cons.mp hnd).2]
      · simp
      · intro x hx hmem
        rcases List.mem_append.mp hmem with hmem | hmem
        · exact hdis x (List.mem_cons_of_mem _ hx) hmem
        · exact (List.nodup_cons.mp hnd).1 ((List.mem_singleton.mp hmem) ▸ hx)
  rw [odedup, general l [] h (fun x _ => List.not_mem_nil x)]
  simp

/-- State of the collision-collection fold: the `seen` component holds
exactly the filenames encountered, the `non_uniques` component exactly
those whose running count reached two. -/
theorem non_uniques_fold (fn : String → String) :
    ∀ (l : List String) (seen nu : List String),
      (∀ x, x ∈ (l.foldl (fun st path =>
          (osAdd st.1 (fn path),
            if fn path ∈ st.1 then osAdd st.2 (fn path) else st.2)) (seen, nu)).1
        ↔ x ∈ seen ∨ x ∈ l.map fn) ∧
      (∀ x, x ∈ (l.foldl (fun st path =>
          (osAdd st.1 (fn path),
            if fn path ∈ st.1 then osAdd st.2 (fn path) else st.2)) (seen, nu)).2
        ↔ x ∈ nu ∨ (x ∈ seen ∧ x ∈ l.map fn) ∨ 2 ≤ (l.map fn).count x) := by
  intro l
  induction l with
  | nil =>
    intro seen nu
    constructor
    · intro x
      simp
    · intro x
      simp
  | cons p t ih =>
    intro seen nu
    rw [List.foldl_cons]
    obtain ⟨ihs, ihn⟩ := ih (osAdd seen (fn p))
      (if fn p ∈ seen then osAdd nu (fn p) else nu)
    constructor
    · intro x
      rw [ihs x, mem_osAdd]
      simp only [List.map_cons, List.mem_cons]
      tauto
    · intro x
      rw [ihn x]
      rw [List.map_cons]
      have hcmem : x ∈ t.map fn ↔ 1 ≤ (t.map fn).count x := List.one_le_count_iff.symm
      by_cases hxf : x = fn p
      · subst hxf
        have hcount1 : (fn p :: t.map fn).count (fn p) = (t.map fn).count (fn p) + 1 := by
          rw [List.count_cons]
          simp
        rw [hcount1]
        by_cases hfs : fn p ∈ seen
        · rw [if_pos hfs]
          constructor
          · intro _
            exact Or.inr (Or.inl ⟨hfs, List.mem_cons_self _ _⟩)
          · intro _
            exact Or.inl ((mem_osAdd nu (fn p) (fn p)).mpr (Or.inr rfl))
        · rw [if_neg hfs]
          constructor
          · rintro (h | ⟨_, hmem⟩ | hc)
            · exact Or.inl h
            · have h1 := hcmem.mp hmem
              exact Or.inr (Or.inr (by omega))
            · exact Or.inr (Or.inr (by omega))
          · rintro (h | ⟨hs, _⟩ | hc)
            · exact Or.inl h
            · exact absurd hs hfs
            · have h1 : 1 ≤ (t.map fn).count (fn p) := by omega
              exact Or.inr (Or.inl
                ⟨(mem_osAdd seen (fn p) (fn p)).mpr (Or.inr rfl), hcmem.mpr h1⟩)
      · have hbeq : (fn p == x) = false := by
          simp only [beq_eq_false_iff_ne, ne_eq]
          exact fun hh => hxf hh.symm
        have hcount0 : (fn p :: t.map fn).count x = (t.map fn).count x := by
          rw [List.count_cons, hbeq]
          simp
        rw [hcount0]
        have hms : x ∈ osAdd seen (fn p) ↔ x ∈ seen := by
          rw [mem_osAdd]
          constructor
          · rintro (h | h)
            · exact h
            · exact absurd h hxf
          · exact Or.inl
        have hmc : x ∈ fn p :: t.map fn ↔ x ∈ t.map fn := by
          rw [List.mem_cons]
          constructor
          · rintro (h | h)
            · exact absurd h hxf
            · exact h
          · exact Or.inr
        have hmn : (x ∈ if fn p ∈ seen then osAdd nu (fn p) else nu) ↔ x ∈ nu := by
          by_cases hfs : fn p ∈ seen
          · rw [if_pos hfs, mem_osAdd]
            constructor
            · rintro (h | h)
              · exact h
              · exact absurd h hxf
            · exact Or.inl
          · rw [if_neg hfs]
        rw [hms, hmc, hmn]

/-- The collision set holds exactly the pretty-form filenames occurring
at least twice among the inputs. -/
theorem mem_non_uniques_iff (paths : List String) (f : String) :
    f ∈ get_non_uniques_file_names paths
      ↔ 2 ≤ (paths.map (fun q => lastName (prettify_long_name q))).count f := by
  have heq : get_non_uniques_file_names paths
      = (paths.foldl (fun st path =>
          (osAdd st.1 (lastName (prettify_long_name path)),
            if lastName (prettify_long_name path) ∈ st.1
              then osAdd st.2 (lastName (prettify_long_name path)) else st.2)) ([], [])).2 :=
    rfl
  rw [heq, (non_uniques_fold (fun path => lastName (prettify_long_name path)) paths [] []).2 f]
  simp

/-- Display-name rule of `generate_short_unique_name_mapping` for one
path, given the collision set. -/
def displayNameFor (non_uniques : List String) (file_path : String) : String :=
  let short := prettify_long_name file_path
  if isPre "HOL4/".data short.data then short
  else if lastName short ∈ non_uniques then lastThree short
  else lastName short

/-- The name-mapping fold is the per-path rule applied to every input. -/
theorem generate_mapping_eq_map (paths : List String) :
    generate_short_unique_name_mapping paths
      = (odedup paths).map
          (fun fp => (fp, displayNameFor (get_non_uniques_file_names (odedup paths)) fp)) := by
  have general : ∀ (l : List String) (nu : List String) (acc : List (String × String)),
      l.foldl (fun mapping file_path =>
          let short := prettify_long_name file_path
          if isPre "HOL4/".data short.data then mapping ++ [(file_path, short)]
          else
            let filename := lastName short
            if filename ∈ nu then mapping ++ [(file_path, lastThree short)]
            else mapping ++ [(file_path, filename)]) acc
        = acc ++ l.map (fun fp => (fp, displayNameFor nu fp)) := by
    intro l nu
    induction l with
    | nil => intro acc; simp
    | cons fp t ih =>
      intro acc
      rw [List.foldl_cons, List.map_cons]
      have hstep : (let short := prettify_long_name fp
          if isPre "HOL4/".data short.data then acc ++ [(fp, short)]
          else
            let filename := lastName short
            if filename ∈ nu then acc ++ [(fp, lastThree short)]
            else acc ++ [(fp, filename)])
          = acc ++ [(fp, displayNameFor nu fp)] := by
        rw [displayNameFor]
        by_cases h1 : isPre "HOL4/".data (prettify_long_name fp).data = true
        · simp only [h1, if_pos, ite_true]
        · simp only [eq_self_iff_true] at h1
          by_cases h2 : lastName (prettify_long_name fp) ∈ nu <;>
            simp only [h1, h2, ite_true, ite_false, if_pos, if_neg, Bool.false_eq_true]
      rw [hstep, ih]
      simp
  rw [generate_short_unique_name_mapping, general]
  simp

/-- Looking up a mapped pair list built from its own keys. -/
theorem alookup_map_pair {l : List String} {p : String} (nm : String → String)
    (hp : p ∈ l) : alookup (l.map (fun fp => (fp, nm fp))) p = some (nm p) := by
  induction l with
  | nil => cases hp
  | cons a t ih =>
    rw [List.map_cons]
    by_cases hap : a = p
    · subst hap
      simp [alookup]
    · rw [alookup, if_neg hap]
      rcases List.mem_cons.mp hp with h | h
      · exact absurd h.symm hap
      · exact ih h

/-- Claim C7: for every deduplicated collection of paths,
`generate_short_unique_name_mapping` assigns to each path its full pretty
form when that form starts with the installed-library label `HOL4/`;
otherwise just the pretty form's filename when that filename occurs
exactly once among all inputs' pretty forms; otherwise the last three
segments of the pretty form joined by `/`. -/
theorem c7_display_name_rule (paths : List String) (hnd : paths.Nodup)
    (p : String) (hp : p ∈ paths) :
    alookup (generate_short_unique_name_mapping paths) p
      = some (if isPre "HOL4/".data (prettify_long_name p).data then prettify_long_name p
          else if (paths.map (fun q => lastName (prettify_long_name q))).count
              (lastName (prettify_long_name p)) = 1
            then lastName (prettify_long_name p)
            else lastThree (prettify_long_name p)) := by
  rw [generate_mapping_eq_map, odedup_eq_self hnd, alookup_map_pair _ hp]
  rw [displayNameFor]
  by_cases h1 : isPre "HOL4/".data (prettify_long_name p).data = true
  · rw [if_pos h1, if_pos h1]
  · rw [if_neg h1, if_neg h1]
    have hmem1 : 1 ≤ (paths.map (fun q => lastName (prettify_long_name q))).count
        (lastName (prettify_long_name p)) := by
      rw [List.one_le_count_iff]
      exact List.mem_map.mpr ⟨p, hp, rfl⟩
    by_cases h2 : lastName (prettify_long_name p) ∈ get_non_uniques_file_names paths
    · rw [if_pos h2]
      have h2c := (mem_non_uniques_iff paths _).mp h2
      have : ¬ ((paths.map (fun q => lastName (prettify_long_name q))).count
          (lastName (prettify_long_name p)) = 1) := by omega
      rw [if_neg this]
    · rw [if_neg h2]
      have h2c : ¬ 2 ≤ (paths.map (fun q => lastName (prettify_long_name q))).count
          (lastName (prettify_long_name p)) :=
        fun hc => h2 ((mem_non_uniques_iff paths _).mpr hc)
      have : (paths.map (fun q => lastName (prettify_long_name q))).count
          (lastName (prettify_long_name p)) = 1 := by omega
      rw [if_pos this]

/-- Witness for C7 at the colliding scenario: `root1/sub/foo` and
`root2/sub/foo` both resolve to their distinct last-three-segment forms. -/
theorem c7_display_name_rule_witness :
    alookup (generate_short_unique_name_mapping ["root1/sub/foo", "root2/sub/foo"])
        "root1/sub/foo" = some "root1/sub/foo" ∧
      alookup (generate_short_unique_name_mapping ["root1/sub/foo", "root2/sub/foo"])
        "root2/sub/foo" = some "root2/sub/foo" :=
  ⟨(c7_display_name_rule ["root1/sub/foo", "root2/sub/foo"] (by decide)
      "root1/sub/foo" (by decide)).trans (by decide),
    (c7_display_name_rule ["root1/sub/foo", "root2/sub/foo"] (by decide)
      "root2/sub/foo" (by decide)).trans (by decide)⟩

/-- Index bookkeeping of the `findSub` worker: a hit means the pattern is
a prefix of the suffix at the reported index. -/
theorem findSubAux_isPre {pat : List Char} :
    ∀ (s : List Char) (j i : Nat), findSubAux pat s j = some i →
      j ≤ i ∧ isPre pat (s.drop (i - j)) = true := by
  intro s
  induction s with
  | nil =>
    intro j i h
    rw [findSubAux] at h
    by_cases hp : pat = []
    · rw [if_pos hp] at h
      cases h
      subst hp
      simp [isPre]
    · rw [if_neg hp] at h
      cases h
  | cons c rest ih =>
    intro j i h
    rw [findSubAux] at h
    by_cases hp : isPre pat (c :: rest) = true
    · rw [if_pos hp] at h
      cases h
      simpa using hp
    · rw [if_neg hp] at h
      obtain ⟨hle, hpre⟩ := ih (j + 1) i h
      refine ⟨by omega, ?_⟩
      have hij : i - j = (i - (j + 1)) + 1 := by omega
      rw [hij]
      simpa using hpre

/-- A `findSub` hit means the pattern is a prefix of the suffix at the
found index. -/
theorem findSub_isPre {pat s : List Char} {i : Nat} (h : findSub pat s = some i) :
    isPre pat (s.drop i) = true := by
  have := findSubAux_isPre s 0 i h
  simpa using this.2

/-- Destructing a successful prefix test. -/
theorem isPre_cons {a : Char} {pat s : List Char} (h : isPre (a :: pat) s = true) :
    ∃ s', s = a :: s' ∧ isPre pat s' = true := by
  cases s with
  | nil => simp [isPre] at h
  | cons b s' =>
    rw [isPre, Bool.and_eq_true] at h
    have hab : a = b := by
      have := h.1
      simpa using this
    exact ⟨s', by rw [hab], h.2⟩

/-- A suffix that starts with `HolBA/` does not start with `HOL4/`. -/
theorem isPre_holba_not_hol4 (s : List Char) (h : isPre "HolBA/".data s = true) :
    isPre "HOL4/".data s = false := by
  have hd : "HolBA/".data = 'H' :: 'o' :: 'l' :: 'B' :: 'A' :: '/' :: [] := rfl
  rw [hd] at h
  obtain ⟨s1, hs1, h1⟩ := isPre_cons h
  obtain ⟨s2, hs2, _⟩ := isPre_cons h1
  subst hs2
  subst hs1
  have hd2 : "HOL4/".data = 'H' :: 'O' :: 'L' :: '4' :: '/' :: [] := rfl
  rw [hd2]
  simp [isPre, show (('O' == 'o') : Bool) = false from rfl]

/-- Claim C8, counterexample: the input `/home/u/HolBA/src/foo` contains
the recognised project-root marker `/HolBA/` and has the unique filename
`foo`, yet its display name is `foo`, not the full rebased pretty form
`HolBA/src/foo`. -/
theorem c8_counterexample_project_root_not_kept :
    (findSub holbaMarker "/home/u/HolBA/src/foo".data).isSome = true ∧
    prettify_long_name "/home/u/HolBA/src/foo" = "HolBA/src/foo" ∧
    alookup (generate_short_unique_name_mapping ["/home/u/HolBA/src/foo"])
      "/home/u/HolBA/src/foo" = some "foo" ∧
    ("foo" : String) ≠ "HolBA/src/foo" := by
  refine ⟨rfl, rfl, rfl, ?_⟩
  decide

/-- Claim C8, amended: an input whose path contains the project-root
marker `/HolBA/` has its pretty form rebased to start at the marker, and
that rebased form never carries the installed-library label `HOL4/`; its
display name therefore follows the generic rule — in particular, when its
pretty filename occurs exactly once among the inputs, the display name is
just that filename, not the full rebased pretty form.  Only pretty forms
starting with `HOL4/` unconditionally keep the full pretty form. -/
theorem c8_amended_project_root_follows_filename_rule (paths : List String)
    (hnd : paths.Nodup) (p : String) (hp : p ∈ paths) (i : Nat)
    (hmark : findSub holbaMarker (prettifyStage1 p) = some i)
    (huniq : (paths.map (fun q => lastName (prettify_long_name q))).count
        (lastName (prettify_long_name p)) = 1) :
    isPre "HOL4/".data (prettify_long_name p).data = false ∧
    alookup (generate_short_unique_name_mapping paths) p
      = some (lastName (prettify_long_name p)) := by
  have hpre : isPre holbaMarker ((prettifyStage1 p).drop i) = true := findSub_isPre hmark
  have hmarker : holbaMarker = '/' :: "HolBA/".data := rfl
  rw [hmarker] at hpre
  obtain ⟨s', hs', hpre2⟩ := isPre_cons hpre
  have hdata : (prettify_long_name p).data = (prettifyStage1 p).drop (i + 1) := by
    rw [prettify_long_name]
    rw [hmark]
  have hdrop : (prettifyStage1 p).drop (i + 1) = s' := by
    have h11 : (prettifyStage1 p).drop (i + 1) = ((prettifyStage1 p).drop i).drop 1 := by
      rw [List.drop_drop]
    rw [h11, hs']
    rfl
  have hfalse : isPre "HOL4/".data (prettify_long_name p).data = false := by
    rw [hdata, hdrop]
    exact isPre_holba_not_hol4 s' hpre2
  refine ⟨hfalse, ?_⟩
  rw [c7_display_name_rule paths hnd p hp]
  have hnot : ¬ (isPre "HOL4/".data (prettify_long_name p).data = true) := by
    rw [hfalse]
    exact Bool.false_ne_true
  rw [if_neg hnot, if_pos huniq]

/-- Witness for the amended C8 at a concrete input: `/home/u/HolBA/src/foo`
carries the project-root marker (at index 7 of its first-stage pretty
form) and a unique filename, and resolves to `foo`. -/
theorem c8_amended_project_root_follows_filename_rule_witness :
    alookup (generate_short_unique_name_mapping ["/home/u/HolBA/src/foo"])
      "/home/u/HolBA/src/foo" = some "foo" :=
  ((c8_amended_project_root_follows_filename_rule ["/home/u/HolBA/src/foo"] (by decide)
      "/home/u/HolBA/src/foo" (by decide) 7 (by rfl) (by decide)).2).trans (by decide)

/-- The alignment relation is symmetric. -/
theorem ColorAligned.symm {xs ys : List Char} (h : ColorAligned xs ys) :
    ColorAligned ys xs := by
  induction h with
  | nil => exact ColorAligned.nil
  | cons c _ ih => exact ColorAligned.cons c ih
  | pat h1 h2 _ ih => exact ColorAligned.pat h2 h1 ih

/-- The alignment relation is reflexive. -/
theorem ColorAligned.crefl : ∀ (xs : List Char), ColorAligned xs xs := by
  intro xs
  induction xs with
  | nil => exact ColorAligned.nil
  | cons c t ih => exact ColorAligned.cons c ih

/-- The alignment relation is closed under appending. -/
theorem ColorAligned.append {a b c d : List Char} (hab : ColorAligned a b)
    (hcd : ColorAligned c d) : ColorAligned (a ++ c) (b ++ d) := by
  induction hab with
  | nil => exact hcd
  | cons ch _ ih => exact ColorAligned.cons ch ih
  | pat h1 h2 _ ih =>
    rw [List.append_assoc, List.append_assoc]
    exact ColorAligned.pat h1 h2 ih

/-- Peeling a common marker-free prefix off an alignment: no complete
color token can begin inside it, so the characters match one by one. -/
theorem aligned_drop_suffix :
    ∀ (suf xs ys rest : List Char), ColorAligned xs ys → xs = suf ++ rest →
      (∀ a ∈ suf, a ≠ 'c') →
      ∃ rest', ys = suf ++ rest' ∧ ColorAligned rest rest' := by
  intro suf
  induction suf with
  | nil =>
    intro xs ys rest h hxs _
    rw [List.nil_append] at hxs
    subst hxs
    exact ⟨ys, rfl, h⟩
  | cons a suf ih =>
    intro xs ys rest h hxs hnc
    cases h with
    | nil => cases hxs
    | cons ch hsub =>
      rename_i xs0 ys0
      rw [List.cons_append] at hxs
      injection hxs with hch hxs0
      subst hch
      obtain ⟨rest', hys0, hal⟩ := ih xs0 ys0 rest hsub hxs0
        (fun e he => hnc e (List.mem_cons_of_mem _ he))
      refine ⟨rest', ?_, hal⟩
      rw [List.cons_append, hys0]
    | pat hv1 hv2 hsub =>
      rename_i h1 h2 xs0 ys0
      exfalso
      rw [colorPat, List.cons_append, List.cons_append] at hxs
      injection hxs with hch _
      exact hnc a (List.mem_cons_self _ _) hch.symm

/-- Hex digits are never the letter `c`. -/
theorem hexU_ne_c {a : Char} (h : hexU a = true) : a ≠ 'c' := by
  intro ha
  subst ha
  exact absurd h (by decide)

/-- Transfer of a leading color token across an alignment: the other side
also starts with a (possibly different) valid color token, and the tails
remain aligned. -/
theorem aligned_pat_head {xs ys : List Char} (h : ColorAligned xs ys) :
    ∀ (hx rest : List Char), ValidHex hx → xs = colorPat hx ++ rest →
      ∃ hy rest', ValidHex hy ∧ ys = colorPat hy ++ rest' ∧ ColorAligned rest rest' := by
  cases h with
  | nil =>
    intro hx rest _ hxs
    rw [colorPat] at hxs
    cases hxs
  | cons ch hsub =>
    rename_i xs0 ys0
    intro hx rest hv hxs
    rw [colorPat, List.cons_append] at hxs
    injection hxs with hch hxs0
    subst hch
    have hnc : ∀ a ∈ ('o' :: 'l' :: 'o' :: 'r' :: '=' :: '"' :: '#' :: (hx ++ ['"'])),
        a ≠ 'c' := by
      intro a ha
      simp only [List.mem_cons, List.mem_append, List.not_mem_nil, or_false] at ha
      rcases ha with h | h | h | h | h | h | h | h | h
      · subst h; decide
      · subst h; decide
      · subst h; decide
      · subst h; decide
      · subst h; decide
      · subst h; decide
      · subst h; decide
      · exact hexU_ne_c (hv.2 a h)
      · subst h; decide
    obtain ⟨rest', hys0, hal⟩ := aligned_drop_suffix _ xs0 ys0 rest hsub hxs0 hnc
    refine ⟨hx, rest', hv, ?_, hal⟩
    subst hys0
    rw [colorPat]
    simp [List.append_assoc]
  | pat hv1 hv2 hsub =>
    rename_i h1 h2 xs0 ys0
    intro hx rest hv hxs
    have hlen : (colorPat h1).length = (colorPat hx).length := by
      rw [colorPat, colorPat]
      simp [hv1.1, hv.1]
    obtain ⟨hpre, hsuf⟩ := List.append_inj hxs hlen
    exact ⟨h2, ys0, hv2, rfl, hsuf ▸ hsub⟩

/-- Characterisation of a leading color token. -/
theorem startsColorPat_iff (xs : List Char) :
    startsColorPat xs = true ↔ ∃ h rest, ValidHex h ∧ xs = colorPat h ++ rest := by
  constructor
  · intro hsp
    unfold startsColorPat at hsp
    split at hsp
    · rename_i a b c d e f tail
      simp only [Bool.and_eq_true] at hsp
      refine ⟨[a, b, c, d, e, f], tail, ⟨rfl, ?_⟩, ?_⟩
      · intro x hx
        simp only [List.mem_cons, List.not_mem_nil, or_false] at hx
        rcases hx with h1 | h1 | h1 | h1 | h1 | h1
        · exact h1 ▸ hsp.1.1.1.1.1
        · exact h1 ▸ hsp.1.1.1.1.2
        · exact h1 ▸ hsp.1.1.1.2
        · exact h1 ▸ hsp.1.1.2
        · exact h1 ▸ hsp.1.2
        · exact h1 ▸ hsp.2
      · rw [colorPat]
        rfl
    · cases hsp
  · rintro ⟨h, rest, hv, hxs⟩
    subst hxs
    have h6 := hv.1
    have hmem := hv.2
    rcases h with _ | ⟨a, h⟩
    · simp only [List.length_nil, List.length_cons] at h6; omega
    rcases h with _ | ⟨b, h⟩
    · simp only [List.length_nil, List.length_cons] at h6; omega
    rcases h with _ | ⟨c, h⟩
    · simp only [List.length_nil, List.length_cons] at h6; omega
    rcases h with _ | ⟨d, h⟩
    · simp only [List.length_nil, List.length_cons] at h6; omega
    rcases h with _ | ⟨e, h⟩
    · simp only [List.length_nil, List.length_cons] at h6; omega
    rcases h with _ | ⟨f, h⟩
    · simp only [List.length_nil, List.length_cons] at h6; omega
    rcases h with _ | ⟨g, h⟩
    rotate_left
    · simp only [List.length_nil, List.length_cons] at h6; omega
    have heq : colorPat [a, b, c, d, e, f] ++ rest
        = 'c' :: 'o' :: 'l' :: 'o' :: 'r' :: '=' :: '"' :: '#'
          :: a :: b :: c :: d :: e :: f :: '"' :: rest := by
      rw [colorPat]
      simp
    rw [heq]
    have hred : startsColorPat ('c' :: 'o' :: 'l' :: 'o' :: 'r' :: '=' :: '"' :: '#'
          :: a :: b :: c :: d :: e :: f :: '"' :: rest)
        = (hexU a && hexU b && hexU c && hexU d && hexU e && hexU f) := rfl
    rw [hred, hmem a (by simp), hmem b (by simp), hmem c (by simp), hmem d (by simp),
      hmem e (by simp), hmem f (by simp)]
    rfl

/-- Erasing from a list that starts with a color token skips the token. -/
theorem eraseColors_pat {h : List Char} (hv : ValidHex h) (xs : List Char) :
    eraseColors (colorPat h ++ xs) = eraseColors xs := by
  have hsp : startsColorPat (colorPat h ++ xs) = true :=
    (startsColorPat_iff _).mpr ⟨h, xs, hv, rfl⟩
  have hshape : colorPat h ++ xs
      = 'c' :: (('o' :: 'l' :: 'o' :: 'r' :: '=' :: '"' :: '#' :: (h ++ ['"'])) ++ xs) := by
    rw [colorPat, List.cons_append]
  rw [hshape] at hsp ⊢
  rw [eraseColors, if_pos hsp]
  congr 1
  have hlen : ('o' :: 'l' :: 'o' :: 'r' :: '=' :: '"' :: '#' :: (h ++ ['"'])).length = 14 := by
    simp [hv.1]
  rw [← hlen]
  exact List.drop_left _ _

/-- Alignment transfers a leading color token test. -/
theorem startsColorPat_aligned {xs ys : List Char} (h : ColorAligned xs ys)
    (hsp : startsColorPat xs = true) : startsColorPat ys = true := by
  obtain ⟨hx, rest, hv, hxs⟩ := (startsColorPat_iff xs).mp hsp
  obtain ⟨hy, rest', hv2, hys, _⟩ := aligned_pat_head h hx rest hv hxs
  exact (startsColorPat_iff ys).mpr ⟨hy, rest', hv2, hys⟩

/-- Aligned character lists have the same color-erased form. -/
theorem aligned_erase {xs ys : List Char} (h : ColorAligned xs ys) :
    eraseColors xs = eraseColors ys := by
  have main : ∀ (n : Nat) (xs ys : List Char), xs.length ≤ n → ColorAligned xs ys →
      eraseColors xs = eraseColors ys := by
    intro n
    induction n with
    | zero =>
      intro xs ys hlen hal
      have hxs : xs = [] := List.eq_nil_of_length_eq_zero (Nat.le_zero.mp hlen)
      subst hxs
      cases hal
      rfl
    | succ n ih =>
      intro xs ys hlen hal
      cases hsp : startsColorPat xs with
      | true =>
        obtain ⟨hx, rest, hv, hxs⟩ := (startsColorPat_iff xs).mp hsp
        obtain ⟨hy, rest', hv2, hys, hal2⟩ := aligned_pat_head hal hx rest hv hxs
        have hlx : xs.length = 15 + rest.length := by
          rw [hxs]
          simp only [colorPat, List.length_append, List.length_cons, List.length_nil,
            hv.1]
        have hrest : rest.length ≤ n := by omega
        rw [hxs, hys, eraseColors_pat hv, eraseColors_pat hv2]
        exact ih rest rest' hrest hal2
      | false =>
        cases hal with
        | nil => rfl
        | cons ch hsub =>
          rename_i xs0 ys0
          have hspy : startsColorPat (ch :: ys0) = false := by
            cases hspy : startsColorPat (ch :: ys0) with
            | false => rfl
            | true =>
              have := startsColorPat_aligned (ColorAligned.symm (ColorAligned.cons ch hsub))
                hspy
              rw [this] at hsp
              cases hsp
          rw [eraseColors, if_neg (by rw [hsp]; exact Bool.false_ne_true)]
          rw [eraseColors, if_neg (by rw [hspy]; exact Bool.false_ne_true)]
          have hlen0 : xs0.length ≤ n := by
            simp only [List.length_cons] at hlen
            omega
          rw [ih xs0 ys0 hlen0 hsub]
        | pat hv1 hv2 hsub =>
          rename_i h1 h2 xs0 ys0
          rw [(startsColorPat_iff _).mpr ⟨h1, xs0, hv1, rfl⟩] at hsp
          cases hsp
  exact main xs.length xs ys (Nat.le_refl _) h

/-- Every single hexadecimal digit produced by `hexDigit` passes `hexU`. -/
theorem hexDigit_hexU {k : Nat} (h : k < 16) : hexU (hexDigit k) = true := by
  have hall : ∀ j : Fin 16, hexU (hexDigit j.val) = true := by decide
  exact hall ⟨k, h⟩

/-- `toHexU` on a single digit. -/
theorem toHexU_small {n : Nat} (h : n < 16) : toHexU n = [hexDigit n] := by
  rw [toHexU, if_pos h]

/-- `hex2` on a byte value is exactly the two digits of its base-16 form. -/
theorem hex2_eq {n : Nat} (h : n < 256) :
    hex2 n = [hexDigit (n / 16), hexDigit (n % 16)] := by
  by_cases h16 : n < 16
  · have hd : n / 16 = 0 := Nat.div_eq_of_lt h16
    have hm : n % 16 = n := Nat.mod_eq_of_lt h16
    rw [hd, hm]
    simp only [hex2, toHexU_small h16]
    rw [if_pos (by simp)]
    have h0 : hexDigit 0 = '0' := by decide
    rw [h0]
  · have hd16 : n / 16 < 16 := by omega
    have hne : ¬ n < 16 := h16
    simp only [hex2]
    rw [toHexU, if_neg hne, toHexU_small hd16]
    rw [if_neg (by simp)]
    rfl

/-- `hex2` of a byte is two valid hex digits. -/
theorem hex2_valid {n : Nat} (h : n < 256) :
    (hex2 n).length = 2 ∧ ∀ c ∈ hex2 n, hexU c = true := by
  rw [hex2_eq h]
  refine ⟨rfl, ?_⟩
  intro c hc
  simp only [List.mem_cons, List.not_mem_nil, or_false] at hc
  rcases hc with h1 | h1
  · exact h1 ▸ hexDigit_hexU (by omega)
  · exact h1 ▸ hexDigit_hexU (by omega)

/-- A color drawn from in-range PRNG components is `#` followed by a
valid six-digit hex body. -/
theorem colorStream_valid (σ : Nat → Nat × Nat × Nat)
    (hσ : ∀ i, (σ i).1 < 256 ∧ (σ i).2.1 < 256 ∧ (σ i).2.2 < 256) (i : Nat) :
    ∃ hex, ValidHex hex ∧ colorStream σ i = String.mk ('#' :: hex) := by
  refine ⟨hex2 (σ i).1 ++ hex2 (σ i).2.1 ++ hex2 (σ i).2.2, ⟨?_, ?_⟩, rfl⟩
  · simp only [List.length_append, (hex2_valid (hσ i).1).1, (hex2_valid (hσ i).2.1).1,
      (hex2_valid (hσ i).2.2).1]
  · intro c hc
    simp only [List.mem_append] at hc
    rcases hc with (h1 | h1) | h1
    · exact (hex2_valid (hσ i).1).2 c h1
    · exact (hex2_valid (hσ i).2.1).2 c h1
    · exact (hex2_valid (hσ i).2.2).2 c h1

/-- Two renderings of the same edge line that differ only in the hex body
of the color are aligned. -/
theorem aligned_edge_line (f t : String) {hex1 hex2' : List Char}
    (hv1 : ValidHex hex1) (hv2 : ValidHex hex2') :
    ColorAligned
      (f ++ " -> " ++ t ++ "[color=\"" ++ String.mk ('#' :: hex1) ++ "\"];").data
      (f ++ " -> " ++ t ++ "[color=\"" ++ String.mk ('#' :: hex2') ++ "\"];").data := by
  have hb : "[color=\"".data = ['[', 'c', 'o', 'l', 'o', 'r', '=', '"'] := rfl
  have he : "\"];".data = ['"', ']', ';'] := rfl
  have e : ∀ hx : List Char,
      (f ++ " -> " ++ t ++ "[color=\"" ++ String.mk ('#' :: hx) ++ "\"];").data
        = (f.data ++ " -> ".data ++ t.data ++ ['[']) ++ (colorPat hx ++ [']', ';']) := by
    intro hx
    simp only [String.data_append, hb, he, colorPat]
    simp [List.append_assoc]
  rw [e hex1, e hex2']
  exact ColorAligned.append (ColorAligned.crefl _)
    (ColorAligned.pat hv1 hv2 (ColorAligned.crefl _))

/-- Alignment lifts through the newline join of the underlying data. -/
theorem joinNLData_aligned {l1 l2 : List (List Char)}
    (h : List.Forall₂ ColorAligned l1 l2) :
    ColorAligned (joinNLData l1) (joinNLData l2) := by
  induction h with
  | nil => exact ColorAligned.nil
  | cons hab htail ih =>
    rename_i a b t1 t2
    cases htail with
    | nil => exact hab
    | cons hcd htail2 =>
      rename_i c d cs ds
      show ColorAligned (a ++ '\n' :: joinNLData (c :: cs)) (b ++ '\n' :: joinNLData (d :: ds))
      exact ColorAligned.append hab (ColorAligned.cons '\n' ih)

/-- Alignment lifts through `joinNL`. -/
theorem joinNL_aligned {l1 l2 : List String}
    (h : List.Forall₂ (fun a b => ColorAligned a.data b.data) l1 l2) :
    ColorAligned (joinNL l1).data (joinNL l2).data := by
  have hmap : List.Forall₂ ColorAligned (l1.map String.data) (l2.map String.data) := by
    induction h with
    | nil => exact List.Forall₂.nil
    | cons hab _ ih => exact List.Forall₂.cons hab ih
  exact joinNLData_aligned hmap

/-- Any list of strings is data-aligned with itself. -/
theorem forall₂_aligned_refl :
    ∀ l : List String, List.Forall₂ (fun a b => ColorAligned a.data b.data) l l := by
  intro l
  induction l with
  | nil => exact List.Forall₂.nil
  | cons a t ih => exact List.Forall₂.cons (ColorAligned.crefl _) ih

/-- `Forall₂` respects appending on both sides. -/
theorem forall₂_aligned_append {R : String → String → Prop} {l1 l2 u1 u2 : List String}
    (h : List.Forall₂ R l1 l2) (h2 : List.Forall₂ R u1 u2) :
    List.Forall₂ R (l1 ++ u1) (l2 ++ u2) := by
  induction h with
  | nil => exact h2
  | cons hab _ ih => exact List.Forall₂.cons hab ih

/-- The inner edge loop under two valid colors: it fails on exactly the
same inputs, and on success produces line-by-line aligned output. -/
theorem edgesFor_rel (G : DependencyGraph) (nm : List (String × String))
    (f : String) {c1 c2 : String} {hex1 hex2' : List Char}
    (hv1 : ValidHex hex1) (hv2 : ValidHex hex2')
    (hc1 : c1 = String.mk ('#' :: hex1)) (hc2 : c2 = String.mk ('#' :: hex2')) :
    ∀ ds : List Nat,
      (edgesFor G nm f c1 ds = none ∧ edgesFor G nm f c2 ds = none) ∨
      (∃ l1 l2, edgesFor G nm f c1 ds = some l1 ∧ edgesFor G nm f c2 ds = some l2 ∧
        List.Forall₂ (fun a b => ColorAligned a.data b.data) l1 l2) := by
  intro ds
  induction ds with
  | nil => exact Or.inr ⟨[], [], rfl, rfl, List.Forall₂.nil⟩
  | cons d ds ih =>
    cases hdep : alookup G.id_to_path d with
    | none =>
      left
      exact ⟨by simp only [edgesFor, hdep], by simp only [edgesFor, hdep]⟩
    | some dep =>
      cases hto : alookup nm dep with
      | none =>
        left
        exact ⟨by simp only [edgesFor, hdep, hto], by simp only [edgesFor, hdep, hto]⟩
      | some to_node =>
        rcases ih with ⟨h1, h2⟩ | ⟨l1, l2, h1, h2, hrel⟩
        · left
          exact ⟨by simp only [edgesFor, hdep, hto, h1], by simp only [edgesFor, hdep, hto, h2]⟩
        · right
          refine ⟨(f ++ " -> " ++ to_node ++ "[color=\"" ++ c1 ++ "\"];") :: l1,
            (f ++ " -> " ++ to_node ++ "[color=\"" ++ c2 ++ "\"];") :: l2, ?_, ?_, ?_⟩
          · simp only [edgesFor, hdep, hto, h1]
          · simp only [edgesFor, hdep, hto, h2]
          · refine List.Forall₂.cons ?_ hrel
            show ColorAligned
              (f ++ " -> " ++ to_node ++ "[color=\"" ++ c1 ++ "\"];").data
              (f ++ " -> " ++ to_node ++ "[color=\"" ++ c2 ++ "\"];").data
            rw [hc1, hc2]
            exact aligned_edge_line f to_node hv1 hv2

/-- The outer edge loop under two streams of valid colors: failure is
color-independent and successful outputs are line-by-line aligned. -/
theorem edgeLinesAux_rel (G : DependencyGraph) (nm : List (String × String))
    {col1 col2 : Nat → String}
    (hval : ∀ j, ∃ hex1 hex2', ValidHex hex1 ∧ ValidHex hex2' ∧
      col1 j = String.mk ('#' :: hex1) ∧ col2 j = String.mk ('#' :: hex2')) :
    ∀ (ps : List (Nat × DependencyGraphNode)) (j : Nat),
      (edgeLinesAux G nm col1 ps j = none ∧ edgeLinesAux G nm col2 ps j = none) ∨
      (∃ l1 l2, edgeLinesAux G nm col1 ps j = some l1 ∧
        edgeLinesAux G nm col2 ps j = some l2 ∧
        List.Forall₂ (fun a b => ColorAligned a.data b.data) l1 l2) := by
  intro ps
  induction ps with
  | nil => intro j; exact Or.inr ⟨[], [], rfl, rfl, List.Forall₂.nil⟩
  | cons p rest ih =>
    intro j
    cases hfp : alookup G.id_to_path p.1 with
    | none =>
      left
      exact ⟨by simp only [edgeLinesAux, hfp], by simp only [edgeLinesAux, hfp]⟩
    | some fp =>
      cases hfrom : alookup nm fp with
      | none =>
        left
        exact ⟨by simp only [edgeLinesAux, hfp, hfrom], by simp only [edgeLinesAux, hfp, hfrom]⟩
      | some from_node =>
        obtain ⟨hex1, hex2', hv1, hv2, hc1, hc2⟩ := hval j
        rcases edgesFor_rel G nm from_node hv1 hv2 hc1 hc2 p.2.dependencies with
          ⟨he1, he2⟩ | ⟨l1, l2, he1, he2, hrel⟩
        · left
          exact ⟨by simp only [edgeLinesAux, hfp, hfrom, he1],
            by simp only [edgeLinesAux, hfp, hfrom, he2]⟩
        · rcases ih (j + 1) with ⟨hm1, hm2⟩ | ⟨m1, m2, hm1, hm2, hrel2⟩
          · left
            exact ⟨by simp only [edgeLinesAux, hfp, hfrom, he1, hm1],
              by simp only [edgeLinesAux, hfp, hfrom, he2, hm2]⟩
          · right
            exact ⟨l1 ++ m1, l2 ++ m2,
              by simp only [edgeLinesAux, hfp, hfrom, he1, hm1],
              by simp only [edgeLinesAux, hfp, hfrom, he2, hm2],
              forall₂_aligned_append hrel hrel2⟩

/-- C9: the textual output of `as_dot` does not depend on the PRNG seed
except inside the `color="#RRGGBB"` substrings of edge lines: erasing
those substrings yields identical strings for any two streams of
`randint(0, 255)` draws, and failure (`KeyError`) is seed-independent. -/
theorem c9_as_dot_seed_independent (G : DependencyGraph) (σ1 σ2 : Nat → Nat × Nat × Nat)
    (h1 : ∀ i, (σ1 i).1 < 256 ∧ (σ1 i).2.1 < 256 ∧ (σ1 i).2.2 < 256)
    (h2 : ∀ i, (σ2 i).1 < 256 ∧ (σ2 i).2.1 < 256 ∧ (σ2 i).2.2 < 256) :
    Option.map eraseColorsStr (as_dot G (colorStream σ1))
      = Option.map eraseColorsStr (as_dot G (colorStream σ2)) := by
  have hval : ∀ j, ∃ hex1 hex2', ValidHex hex1 ∧ ValidHex hex2' ∧
      colorStream σ1 j = String.mk ('#' :: hex1) ∧
      colorStream σ2 j = String.mk ('#' :: hex2') := by
    intro j
    obtain ⟨hx1, hvx1, he1⟩ := colorStream_valid σ1 h1 j
    obtain ⟨hx2, hvx2, he2⟩ := colorStream_valid σ2 h2 j
    exact ⟨hx1, hx2, hvx1, hvx2, he1, he2⟩
  cases haf : allFilesOf G with
  | none => simp [as_dot, as_dot_lines, haf]
  | some af =>
    cases hnl : nodeLinesAux G.path_to_name_mapping af 0 with
    | none => simp [as_dot, as_dot_lines, haf, hnl]
    | some pnm =>
      obtain ⟨nls, nm⟩ := pnm
      rcases edgeLinesAux_rel G nm hval G.nodes_by_id 0 with
        ⟨he1, he2⟩ | ⟨l1, l2, he1, he2, hrel⟩
      · simp [as_dot, as_dot_lines, haf, hnl, he1, he2]
      · have hall : List.Forall₂ (fun a b => ColorAligned a.data b.data)
            ((["digraph G \x7b", "", "# Nodes", ""] ++ nls ++ ["", "# Edges", ""])
              ++ l1 ++ ["\x7d"])
            ((["digraph G \x7b", "", "# Nodes", ""] ++ nls ++ ["", "# Edges", ""])
              ++ l2 ++ ["\x7d"]) :=
          forall₂_aligned_append
            (forall₂_aligned_append (forall₂_aligned_refl _) hrel)
            (forall₂_aligned_refl _)
        have hjoin : eraseColorsStr (joinNL
              ((["digraph G \x7b", "", "# Nodes", ""] ++ nls ++ ["", "# Edges", ""])
                ++ l1 ++ ["\x7d"]))
            = eraseColorsStr (joinNL
              ((["digraph G \x7b", "", "# Nodes", ""] ++ nls ++ ["", "# Edges", ""])
                ++ l2 ++ ["\x7d"])) := by
          rw [eraseColorsStr, eraseColorsStr]
          exact congrArg String.mk (aligned_erase (joinNL_aligned hall))
        simp only [as_dot, as_dot_lines, haf, hnl, he1, he2, Option.map_map]
        simp only [Option.map_some', Function.comp_apply]
        exact congrArg some hjoin

/-- Concrete instantiation of C9: a two-node graph rendered under the
all-zero seed stream and under a distinct stream erases to the same
text. -/
theorem c9_as_dot_seed_independent_witness :
    Option.map eraseColorsStr (as_dot
        ⟨[("a", "a"), ("b", "b")], [("a", 0), ("b", 1)], [(0, "a"), (1, "b")],
          [(0, ⟨0, [1], []⟩), (1, ⟨1, [], []⟩)]⟩
        (colorStream (fun _ => (0, 0, 0))))
      = Option.map eraseColorsStr (as_dot
        ⟨[("a", "a"), ("b", "b")], [("a", 0), ("b", 1)], [(0, "a"), (1, "b")],
          [(0, ⟨0, [1], []⟩), (1, ⟨1, [], []⟩)]⟩
        (colorStream (fun _ => (255, 1, 2)))) :=
  c9_as_dot_seed_independent _ _ _
    (fun _ => ⟨by decide, by decide, by decide⟩)
    (fun _ => ⟨by decide, by decide, by decide⟩)
